import Mathlib

/-!
# gl-terrain-test: coherent noise and terrain mesh construction

A shallow embedding of `src/noise.c` (`noise`, `cos_interp`, `noise2d`) and of the
mesh construction in `setup()` / `make_height` of `src/main.c`.

Modelling conventions.

* `float` / `GLfloat` arithmetic is carried out over the real numbers (`ℝ`); the
  integer hash produces a rational number.
* `int` arithmetic in `noise.c` wraps at 32 bits (two's complement): `wrap32`
  reduces a mathematical integer to the representable range, `bits32` is the bit
  pattern of an `int` read as an unsigned number.
* The conversion `(int)f` truncates towards zero. C leaves it undefined when the
  truncated value is outside the `int` range; there the model returns `INT_MIN`,
  the value the conversion instruction of the compiled program delivers.
* Grid coordinates, buffer slots and vertex indices of `setup()` are natural
  numbers: they are bounded by the sizes of the buffers they address.
* `MESH_WIDTH` and `MESH_DEPTH` are parameters `W` and `D`.
-/

namespace Terrain

/-! ## `noise.c` -/

/-- Reduction of a mathematical integer to the range of a 32-bit `int`. -/
def wrap32 (n : Int) : Int := (n + 2147483648) % 4294967296 - 2147483648

/-- Bit pattern of a 32-bit `int`, read as an unsigned number. -/
def bits32 (n : Int) : Nat := (n % 4294967296).toNat

/-- Wrapping `int` addition. -/
def iadd (a b : Int) : Int := wrap32 (a + b)

/-- Wrapping `int` multiplication. -/
def imul (a b : Int) : Int := wrap32 (a * b)

/-- The constant `STRIDE` of `noise.c`. -/
def STRIDE : Int := 1999

/-- The integer hash `noise(int x)`, computed on bit patterns:
`x = (x << 13) ^ x; 1.0f - ((x * (x * x * 15731) + 1376312589) & 0x7fffffff) / 1073741824.0f`. -/
def noise (x : Int) : ℚ :=
  let u := bits32 x
  let x1 := ((u * 8192) % 4294967296) ^^^ u
  let sq := (x1 * x1) % 4294967296
  let cu := (sq * 15731) % 4294967296
  let pr := (x1 * cu) % 4294967296
  let sm := (pr + 1376312589) % 4294967296
  1 - ((sm &&& 0x7fffffff : Nat) : ℚ) / 1073741824

/-- The interpolation weight `mu2 = (1 - cos(mu * M_PI)) / 2` of `cos_interp`. -/
noncomputable def cos_weight (mu : ℝ) : ℝ := (1 - Real.cos (mu * Real.pi)) / 2

/-- The function `cos_interp(y0, y1, mu)`: `y0 * (1 - mu2) + y1 * mu2`. -/
noncomputable def cos_interp (y0 y1 mu : ℝ) : ℝ :=
  let mu2 := cos_weight mu
  y0 * (1 - mu2) + y1 * mu2

/-- The conversion `(int)s` of a float: truncation towards zero. When the truncated
value is outside the `int` range (undefined in C) the result is `INT_MIN`, as in the
compiled program. -/
noncomputable def f2i (s : ℝ) : Int :=
  let t : Int := if 0 ≤ s then ⌊s⌋ else ⌈s⌉
  if -2147483648 ≤ t ∧ t ≤ 2147483647 then t else -2147483648

/-- The lattice index of a scaled coordinate: `s > 0.0 ? (int)s : (int)(s - 1)`. -/
noncomputable def lattice_index (s : ℝ) : Int := if s > 0 then f2i s else f2i (s - 1)

/-- The fractional offset of a scaled coordinate: `rx = sx - ix`. -/
noncomputable def lattice_offset (s : ℝ) : ℝ := s - (lattice_index s : ℝ)

/-- The function `noise2d(x, y, seed, frequency)`. -/
noncomputable def noise2d (x y : ℝ) (seed : Int) (frequency : ℝ) : ℝ :=
  let sx := x * frequency
  let sy := y * frequency
  let ix := lattice_index sx
  let iy := lattice_index sy
  let rx := sx - (ix : ℝ)
  let ry := sy - (iy : ℝ)
  let a0 : ℝ := noise (iadd (iadd ix (imul iy STRIDE)) seed)
  let a1 : ℝ := noise (iadd (iadd (iadd ix (imul iy STRIDE)) 1) seed)
  let a2 : ℝ := noise (iadd (iadd ix (imul (iadd iy 1) STRIDE)) seed)
  let a3 : ℝ := noise (iadd (iadd (iadd ix (imul (iadd iy 1) STRIDE)) 1) seed)
  let b0 := cos_interp a0 a1 rx
  let b1 := cos_interp a2 a3 rx
  cos_interp b0 b1 ry

/-- The function `make_height(x, y)` of `main.c`, with the global `noise_gen_seed`
as a parameter: eight octaves, `h += (0.35 / 2^i) * noise2d(x, y, seed, 2^i)`. -/
noncomputable def make_height (noise_gen_seed : Int) (x y : ℝ) : ℝ :=
  (List.range 8).foldl
    (fun h i => h + (0.35 / (2 : ℝ) ^ i) * noise2d x y noise_gen_seed ((2 : ℝ) ^ i)) 0

/-- The hash of the lattice point `(k, j)` with unbounded integer arithmetic
(the hash itself only reads the low 32 bits of its argument). -/
def lattice_hash (seed k j : Int) : ℚ := noise (k + j * 1999 + seed)

/-- Cosine interpolation of an integer-indexed sequence `G` at the real point `s`,
taken in the cell of the mathematical floor of `s` (reference function, compared with
the code's lattice computation). -/
noncomputable def interp_floor (G : Int → ℝ) (s : ℝ) : ℝ :=
  cos_interp (G ⌊s⌋) (G (⌊s⌋ + 1)) (s - (⌊s⌋ : ℝ))

/-- Cosine interpolation of an integer-indexed sequence `G` at the real point `s`,
taken in the cell the code computes: index `lattice_index s`, offset
`s - lattice_index s`. -/
noncomputable def interp_lattice (G : Int → ℝ) (s : ℝ) : ℝ :=
  cos_interp (G (lattice_index s)) (G (lattice_index s + 1)) (s - (lattice_index s : ℝ))

/-- The two hashes of lattice column `k`, interpolated along `y` at the scaled
coordinate `sy` as `noise2d` does. -/
noncomputable def column_value (seed : Int) (sy : ℝ) (k : Int) : ℝ :=
  cos_interp (lattice_hash seed k (lattice_index sy))
    (lattice_hash seed k (lattice_index sy + 1)) (sy - (lattice_index sy : ℝ))

/-! ## `math_3d.h` vectors -/

/-- The type `vec3_t`: three float components. -/
@[ext]
structure vec3_t where
  x : ℝ
  y : ℝ
  z : ℝ

instance : Inhabited vec3_t := ⟨⟨0, 0, 0⟩⟩

/-- Modelled from the spec: `vec3(x, y, z)` of the header `math_3d.h` (absent from the
sources), the constructor of a float triple. -/
def vec3 (x y z : ℝ) : vec3_t := ⟨x, y, z⟩

/-- Modelled from the spec: `v3_add` of `math_3d.h`, component-wise sum
("accumulate each face normal"). -/
noncomputable def v3_add (a b : vec3_t) : vec3_t := ⟨a.x + b.x, a.y + b.y, a.z + b.z⟩

/-- Modelled from the spec: `v3_sub` of `math_3d.h`, component-wise difference
(the edge vectors `p2 - p1`, `p3 - p1`). -/
noncomputable def v3_sub (a b : vec3_t) : vec3_t := ⟨a.x - b.x, a.y - b.y, a.z - b.z⟩

/-- Modelled from the spec: `v3_divs` of `math_3d.h`, division of every component by a
scalar ("divide each vertex's accumulated normal by its reference count"). -/
noncomputable def v3_divs (a : vec3_t) (s : ℝ) : vec3_t := ⟨a.x / s, a.y / s, a.z / s⟩

/-- Modelled from the spec: `v3_cross` of `math_3d.h`, the cross product of two
vectors. -/
noncomputable def v3_cross (a b : vec3_t) : vec3_t :=
  ⟨a.y * b.z - a.z * b.y, a.z * b.x - a.x * b.z, a.x * b.y - a.y * b.x⟩

/-- Modelled from the spec: `v3_length` of `math_3d.h`, the Euclidean length. -/
noncomputable def v3_length (v : vec3_t) : ℝ := Real.sqrt (v.x * v.x + v.y * v.y + v.z * v.z)

/-- Modelled from the spec: `v3_norm` of `math_3d.h`, the normalised vector ("the
normalized cross product"): the vector divided by its length, and the zero vector
when the length is not positive. -/
noncomputable def v3_norm (v : vec3_t) : vec3_t :=
  let len := v3_length v
  if len > 0 then ⟨v.x / len, v.y / len, v.z / len⟩ else ⟨0, 0, 0⟩

/-! ## `main.c`: the mesh construction of `setup()` -/

/-- The local type `Vertex` of `setup()`. -/
structure Vertex where
  position : vec3_t
  normal : vec3_t
  texture_coord_x : ℝ
  texture_coord_y : ℝ

instance : Inhabited Vertex := ⟨⟨default, default, 0, 0⟩⟩

/-- The constant `NUM_TRIANGLES = 2 * (MESH_WIDTH - 1) * (MESH_DEPTH - 1)` (natural
subtraction, which is the `int` subtraction for dimensions of at least `1`). -/
def NUM_TRIANGLES (W D : Nat) : Nat := 2 * (W - 1) * (D - 1)

/-- The vertex assigned to grid point `(x, z)` by the body of the vertex loop; `height`
stands for `make_height`. -/
noncomputable def grid_vertex (W D : Nat) (height : ℝ → ℝ → ℝ) (x z : Nat) : Vertex :=
  let xc : ℝ := -1 + 2 * (x : ℝ) / ((W : ℝ) - 1)
  let zc : ℝ := -1 + 2 * (z : ℝ) / ((D : ℝ) - 1)
  let yc : ℝ := height xc zc
  { position := vec3 xc yc zc
    normal := vec3 0 0 0
    texture_coord_x := 8 * (x : ℝ) / ((W : ℝ) - 1)
    texture_coord_y := 8 * (z : ℝ) / ((D : ℝ) - 1) }

/-- The vertex loop of `setup()`: `vertices[z * MESH_WIDTH + x] = ...` for
`z < MESH_DEPTH`, `x < MESH_WIDTH`, on a zero-initialised buffer of
`MESH_WIDTH * MESH_DEPTH` vertices. -/
noncomputable def vertex_loop (W D : Nat) (height : ℝ → ℝ → ℝ) : List Vertex :=
  (List.range D).foldl
    (fun vs z => (List.range W).foldl
      (fun vs x => vs.set (z * W + x) (grid_vertex W D height x z)) vs)
    (List.replicate (W * D) default)

/-- State of the index loop: the buffer `indices`, the counter `triangle`, and the
sequence of buffer slots assigned so far (a record of the writes, not a program
variable). -/
structure IndexState where
  indices : List Nat
  triangle : Nat
  written : List Nat
deriving DecidableEq

/-- Body of the index loop for the cell `(x, z)`: two triangles, six assignments. -/
def index_cell (W x z : Nat) (st : IndexState) : IndexState :=
  let t0 := st.triangle
  let b0 := st.indices.set (3 * t0) (x + z * W)
  let b1 := b0.set (3 * t0 + 1) (x + (z + 1) * W)
  let b2 := b1.set (3 * t0 + 2) (x + z * W + 1)
  let t1 := t0 + 1
  let b3 := b2.set (3 * t1) (x + z * W + 1)
  let b4 := b3.set (3 * t1 + 1) (x + (z + 1) * W)
  let b5 := b4.set (3 * t1 + 2) (x + (z + 1) * W + 1)
  { indices := b5
    triangle := t1 + 1
    written := st.written ++
      [3 * t0, 3 * t0 + 1, 3 * t0 + 2, 3 * t1, 3 * t1 + 1, 3 * t1 + 2] }

/-- The index loop of `setup()`, for `z < MESH_DEPTH - 1`, `x < MESH_WIDTH - 1`, on a
buffer of `NUM_TRIANGLES * 3` slots (their initial content is immaterial: it is taken
to be `0`). -/
def index_loop (W D : Nat) : IndexState :=
  (List.range (D - 1)).foldl
    (fun st z => (List.range (W - 1)).foldl (fun st x => index_cell W x z st) st)
    { indices := List.replicate (NUM_TRIANGLES W D * 3) 0, triangle := 0, written := [] }

/-- The six indices of cell `(x, z)` in the order the loop body assigns them
(closed form of the index buffer, used to state what the loop computes). -/
def cell_indices (W x z : Nat) : List Nat :=
  [x + z * W, x + (z + 1) * W, x + z * W + 1,
   x + z * W + 1, x + (z + 1) * W, x + (z + 1) * W + 1]

/-- The statement `++vertex_share_count[i]`. -/
def incr (counts : List Nat) (i : Nat) : List Nat := counts.set i (counts[i]! + 1)

/-- Body of the first normal pass for triangle `i`: the face normal
`v3_norm(v3_cross(v3_sub(p2, p1), v3_sub(p3, p1)))` and the three share counts. -/
noncomputable def face_step (vertices : List Vertex) (indices : List Nat)
    (st : List vec3_t × List Nat) (i : Nat) : List vec3_t × List Nat :=
  let i1 := indices[i * 3]!
  let i2 := indices[i * 3 + 1]!
  let i3 := indices[i * 3 + 2]!
  let p1 := vertices[i1]!.position
  let p2 := vertices[i2]!.position
  let p3 := vertices[i3]!.position
  let surface_normals := st.1.set i (v3_norm (v3_cross (v3_sub p2 p1) (v3_sub p3 p1)))
  (surface_normals, incr (incr (incr st.2 i1) i2) i3)

/-- The cross product `v3_cross(v3_sub(p2, p1), v3_sub(p3, p1))` that the first normal
pass forms for triangle `i`, before normalisation. -/
noncomputable def face_cross (vertices : List Vertex) (indices : List Nat) (i : Nat) : vec3_t :=
  let i1 := indices[i * 3]!
  let i2 := indices[i * 3 + 1]!
  let i3 := indices[i * 3 + 2]!
  let p1 := vertices[i1]!.position
  let p2 := vertices[i2]!.position
  let p3 := vertices[i3]!.position
  v3_cross (v3_sub p2 p1) (v3_sub p3 p1)

/-- The first normal pass: `surface_normals` (one slot per triangle) and
`vertex_share_count` (zero-initialised, one slot per vertex). -/
noncomputable def face_pass (W D : Nat) (vertices : List Vertex) (indices : List Nat) :
    List vec3_t × List Nat :=
  (List.range (NUM_TRIANGLES W D)).foldl (face_step vertices indices)
    (List.replicate (NUM_TRIANGLES W D) default, List.replicate (W * D) 0)

/-- The statement `vertices[j].normal = v3_add(vertices[j].normal, n)`. -/
noncomputable def add_normal (vertices : List Vertex) (j : Nat) (n : vec3_t) : List Vertex :=
  vertices.set j { vertices[j]! with normal := v3_add vertices[j]!.normal n }

/-- Body of the second normal pass for triangle `i`. -/
noncomputable def accumulate_step (indices : List Nat) (surface_normals : List vec3_t)
    (vertices : List Vertex) (i : Nat) : List Vertex :=
  let i1 := indices[i * 3]!
  let i2 := indices[i * 3 + 1]!
  let i3 := indices[i * 3 + 2]!
  let v1 := add_normal vertices i1 surface_normals[i]!
  let v2 := add_normal v1 i2 surface_normals[i]!
  add_normal v2 i3 surface_normals[i]!

/-- The second normal pass: every face normal is added to its three vertices. -/
noncomputable def accumulate_pass (W D : Nat) (indices : List Nat)
    (surface_normals : List vec3_t) (vertices : List Vertex) : List Vertex :=
  (List.range (NUM_TRIANGLES W D)).foldl (accumulate_step indices surface_normals) vertices

/-- Body of the third normal pass for vertex `i`: division by the share count when it
is positive. -/
noncomputable def average_step (vertex_share_count : List Nat) (vertices : List Vertex)
    (i : Nat) : List Vertex :=
  let share_count := vertex_share_count[i]!
  if share_count > 0 then
    vertices.set i { vertices[i]! with normal := v3_divs vertices[i]!.normal (share_count : ℝ) }
  else vertices

/-- The third normal pass. -/
noncomputable def average_pass (W D : Nat) (vertex_share_count : List Nat)
    (vertices : List Vertex) : List Vertex :=
  (List.range (W * D)).foldl (average_step vertex_share_count) vertices

/-- The mesh built by `setup()`: the vertex buffer after the three normal passes and
the index buffer. -/
structure Mesh where
  vertices : List Vertex
  indices : List Nat

/-- The mesh construction of `setup()` for grid dimensions `W`, `D` and the height
function `height` (`make_height` in the program). -/
noncomputable def setup (W D : Nat) (height : ℝ → ℝ → ℝ) : Mesh :=
  let vertices := vertex_loop W D height
  let indices := (index_loop W D).indices
  let faces := face_pass W D vertices indices
  let accumulated := accumulate_pass W D indices faces.1 vertices
  { vertices := average_pass W D faces.2 accumulated
    indices := indices }

set_option linter.unusedVariables false

/-! ## Facts about the hash and the interpolation -/

theorem masked_bounds (sm : Nat) :
    (-1 : ℚ) ≤ 1 - ((sm &&& 0x7fffffff : Nat) : ℚ) / 1073741824 ∧
    1 - ((sm &&& 0x7fffffff : Nat) : ℚ) / 1073741824 ≤ 1 := by
  have h : sm &&& 0x7fffffff ≤ 0x7fffffff := Nat.and_le_right
  have h1 : ((sm &&& 0x7fffffff : Nat) : ℚ) ≤ 2147483647 := by exact_mod_cast h
  have h2 : (0 : ℚ) ≤ ((sm &&& 0x7fffffff : Nat) : ℚ) := Nat.cast_nonneg _
  constructor <;> linarith

theorem noise_lower (n : Int) : -1 ≤ noise n := by
  unfold noise
  exact (masked_bounds _).1

theorem noise_upper (n : Int) : noise n ≤ 1 := by
  unfold noise
  exact (masked_bounds _).2

theorem cos_weight_nonneg (mu : ℝ) : 0 ≤ cos_weight mu := by
  unfold cos_weight
  have := Real.cos_le_one (mu * Real.pi)
  linarith

theorem cos_weight_le_one (mu : ℝ) : cos_weight mu ≤ 1 := by
  unfold cos_weight
  have := Real.neg_one_le_cos (mu * Real.pi)
  linarith

theorem cos_interp_bounds (y0 y1 mu lo hi : ℝ) (h0 : lo ≤ y0 ∧ y0 ≤ hi)
    (h1 : lo ≤ y1 ∧ y1 ≤ hi) : lo ≤ cos_interp y0 y1 mu ∧ cos_interp y0 y1 mu ≤ hi := by
  unfold cos_interp
  simp only
  have hw0 := cos_weight_nonneg mu
  have hw1 := cos_weight_le_one mu
  constructor <;> nlinarith [h0.1, h0.2, h1.1, h1.2]

theorem noise_real_bounds (n : Int) : (-1 : ℝ) ≤ (noise n : ℝ) ∧ ((noise n : ℝ)) ≤ 1 := by
  constructor
  · have := noise_lower n
    exact_mod_cast this
  · have := noise_upper n
    exact_mod_cast this

/-- C3: every value of `noise2d` lies in the closed interval `[-1, 1]`; the raw hash
lies in `[-1, 1]` for every integer argument, and the weight of every `cos_interp`
step lies in `[0, 1]`. -/
theorem noise2d_range (x y : ℝ) (seed : Int) (frequency : ℝ) :
    (-1 ≤ noise2d x y seed frequency ∧ noise2d x y seed frequency ≤ 1) ∧
    (∀ n : Int, -1 ≤ noise n ∧ noise n ≤ 1) ∧
    (∀ mu : ℝ, 0 ≤ cos_weight mu ∧ cos_weight mu ≤ 1) := by
  refine ⟨?_, fun n => ⟨noise_lower n, noise_upper n⟩,
    fun mu => ⟨cos_weight_nonneg mu, cos_weight_le_one mu⟩⟩
  unfold noise2d
  simp only
  apply cos_interp_bounds
  · exact cos_interp_bounds _ _ _ _ _ (noise_real_bounds _) (noise_real_bounds _)
  · exact cos_interp_bounds _ _ _ _ _ (noise_real_bounds _) (noise_real_bounds _)

/-! ## Wrap-around arithmetic -/

theorem wrap32_eq_sub (n : Int) :
    wrap32 n = n - 4294967296 * ((n + 2147483648) / 4294967296) := by
  unfold wrap32
  rw [Int.emod_def]
  ring

theorem wrap32_of_range (n : Int) (h1 : -2147483648 ≤ n) (h2 : n < 2147483648) :
    wrap32 n = n := by
  unfold wrap32
  rw [Int.emod_eq_of_lt (by omega) (by omega)]
  ring

theorem wrap32_emod (n : Int) : wrap32 n % 4294967296 = n % 4294967296 := by
  rw [wrap32_eq_sub]
  rw [Int.sub_eq_add_neg, ← Int.mul_neg, Int.add_mul_emod_self_left]

theorem bits32_congr (a b : Int) (h : a % 4294967296 = b % 4294967296) :
    bits32 a = bits32 b := by
  unfold bits32
  rw [h]

theorem noise_congr (a b : Int) (h : a % 4294967296 = b % 4294967296) :
    noise a = noise b := by
  unfold noise
  rw [bits32_congr a b h]

theorem iadd_emod (a b a1 b1 : Int) (ha : a % 4294967296 = a1 % 4294967296)
    (hb : b % 4294967296 = b1 % 4294967296) :
    iadd a b % 4294967296 = (a1 + b1) % 4294967296 := by
  unfold iadd
  rw [wrap32_emod, Int.add_emod, ha, hb, ← Int.add_emod]

theorem imul_emod (a b a1 b1 : Int) (ha : a % 4294967296 = a1 % 4294967296)
    (hb : b % 4294967296 = b1 % 4294967296) :
    imul a b % 4294967296 = (a1 * b1) % 4294967296 := by
  unfold imul
  rw [wrap32_emod, Int.mul_emod, ha, hb, ← Int.mul_emod]

/-! ## The lattice cell of a scaled coordinate -/

theorem cos_weight_periodic (mu : ℝ) (q : Int) :
    cos_weight (mu + 2 * (q : ℝ)) = cos_weight mu := by
  unfold cos_weight
  have h : (mu + 2 * (q : ℝ)) * Real.pi = mu * Real.pi + (q : ℝ) * (2 * Real.pi) := by ring
  rw [h, Real.cos_add_int_mul_two_pi]

theorem cos_weight_zero : cos_weight 0 = 0 := by
  unfold cos_weight
  simp

theorem cos_weight_one : cos_weight 1 = 1 := by
  unfold cos_weight
  simp

theorem cos_interp_zero (y0 y1 : ℝ) : cos_interp y0 y1 0 = y0 := by
  unfold cos_interp
  simp [cos_weight_zero]

theorem cos_interp_one (y0 y1 : ℝ) : cos_interp y0 y1 1 = y1 := by
  unfold cos_interp
  simp [cos_weight_one]

theorem f2i_nonneg (s : ℝ) (h : 0 ≤ s) (hhi : s < 2147483648) : f2i s = ⌊s⌋ := by
  have h1 : (0 : Int) ≤ ⌊s⌋ := Int.floor_nonneg.mpr h
  have h2 : ⌊s⌋ < 2147483648 := by
    apply Int.floor_lt.mpr
    push_cast
    exact hhi
  unfold f2i
  simp only [if_pos h]
  exact if_pos ⟨by omega, by omega⟩

theorem f2i_neg (s : ℝ) (h : s < 0) (hlo : -2147483649 < s) : f2i s = ⌈s⌉ := by
  have h1 : ⌈s⌉ ≤ 0 := by
    apply Int.ceil_le.mpr
    push_cast
    exact h.le
  have h2 : -2147483649 < ⌈s⌉ := by
    apply Int.lt_ceil.mpr
    push_cast
    exact hlo
  unfold f2i
  simp only [if_neg (not_le.mpr h)]
  exact if_pos ⟨by omega, by omega⟩

theorem f2i_high (s : ℝ) (h : 2147483648 ≤ s) : f2i s = -2147483648 := by
  have h1 : (2147483648 : Int) ≤ ⌊s⌋ := by
    apply Int.le_floor.mpr
    push_cast
    exact h
  have h0 : (0 : ℝ) ≤ s := by linarith
  unfold f2i
  simp only [if_pos h0]
  exact if_neg (by omega)

theorem f2i_low (s : ℝ) (h : s ≤ -2147483649) : f2i s = -2147483648 := by
  have h1 : ⌈s⌉ ≤ -2147483649 := by
    apply Int.ceil_le.mpr
    push_cast
    exact h
  have h0 : ¬ (0 : ℝ) ≤ s := by linarith
  unfold f2i
  simp only [if_neg h0]
  exact if_neg (by omega)

/-- Inside the `int` range the lattice index of a positive coordinate is its floor. -/
theorem lattice_index_pos (s : ℝ) (h : 0 < s) (hhi : s < 2147483648) :
    lattice_index s = ⌊s⌋ := by
  unfold lattice_index
  rw [if_pos h, f2i_nonneg s h.le hhi]

/-- Inside the `int` range the lattice index of a coordinate `s <= 0` is
`ceil(s) - 1`. -/
theorem lattice_index_nonpos (s : ℝ) (h : s ≤ 0) (hlo : -2147483648 < s) :
    lattice_index s = ⌈s⌉ - 1 := by
  unfold lattice_index
  rw [if_neg (not_lt.mpr h), f2i_neg (s - 1) (by linarith) (by linarith), Int.ceil_sub_one]

/-- At and above `2^31` the conversion is out of range and the index is `INT_MIN`. -/
theorem lattice_index_high (s : ℝ) (h : 2147483648 ≤ s) : lattice_index s = -2147483648 := by
  unfold lattice_index
  rw [if_pos (by linarith), f2i_high s h]

/-- At and below `-2^31` the index is `INT_MIN`. -/
theorem lattice_index_low (s : ℝ) (h : s ≤ -2147483648) : lattice_index s = -2147483648 := by
  unfold lattice_index
  rw [if_neg (by linarith), f2i_low (s - 1) (by linarith)]

/-- Inside the `int` range the code's cell computation agrees with interpolation in
the floor cell: at an integer `s <= 0` the code uses the cell to the left with offset
`1`, which gives the same value. -/
theorem interp_lattice_mid (G : Int → ℝ) (s : ℝ) (hlo : -2147483648 < s)
    (hhi : s < 2147483648) : interp_lattice G s = interp_floor G s := by
  unfold interp_lattice interp_floor
  by_cases hs : 0 < s
  · rw [lattice_index_pos s hs hhi]
  · have hs0 : s ≤ 0 := not_lt.mp hs
    rw [lattice_index_nonpos s hs0 hlo]
    by_cases hint : (⌊s⌋ : ℝ) = s
    · have hc : ⌈s⌉ = ⌊s⌋ := by
        rw [← hint]
        simp
      have e1 : s - ((⌈s⌉ - 1 : Int) : ℝ) = 1 := by
        rw [hc]
        push_cast
        linarith
      have e2 : s - (⌊s⌋ : ℝ) = 0 := by linarith
      have e3 : ⌈s⌉ - 1 + 1 = ⌊s⌋ := by omega
      rw [e1, e2, cos_interp_one, cos_interp_zero, e3]
    · have hlt : (⌊s⌋ : ℝ) < s := lt_of_le_of_ne (Int.floor_le s) hint
      have hc : ⌈s⌉ = ⌊s⌋ + 1 := by
        rw [Int.ceil_eq_iff]
        constructor
        · push_cast
          linarith
        · push_cast
          exact (Int.lt_floor_add_one s).le
      have e3 : ⌈s⌉ - 1 = ⌊s⌋ := by omega
      rw [e3]

/-- Outside the `int` range the code interpolates in the fixed cell at `INT_MIN`. -/
theorem interp_lattice_outer (G : Int → ℝ) (s : ℝ)
    (h : s ≤ -2147483648 ∨ 2147483648 ≤ s) :
    interp_lattice G s
      = cos_interp (G (-2147483648)) (G (-2147483648 + 1)) (s - ((-2147483648 : Int) : ℝ)) := by
  have hi : lattice_index s = -2147483648 := by
    rcases h with h | h
    · exact lattice_index_low s h
    · exact lattice_index_high s h
  unfold interp_lattice
  rw [hi]

/-! ## `noise2d` as a cosine interpolation of lattice columns -/

theorem cos_interp_swap (a0 a1 a2 a3 rx ry : ℝ) :
    cos_interp (cos_interp a0 a1 rx) (cos_interp a2 a3 rx) ry
      = cos_interp (cos_interp a0 a2 ry) (cos_interp a1 a3 ry) rx := by
  unfold cos_interp
  ring

theorem lattice_hash_periodic_k (seed j a b : Int)
    (h : a % 4294967296 = b % 4294967296) : lattice_hash seed a j = lattice_hash seed b j := by
  unfold lattice_hash
  apply noise_congr
  rw [Int.add_emod, Int.add_emod a, h, ← Int.add_emod b, ← Int.add_emod]

theorem column_value_periodic (seed : Int) (sy : ℝ) (a b : Int)
    (h : a % 4294967296 = b % 4294967296) : column_value seed sy a = column_value seed sy b := by
  unfold column_value
  rw [lattice_hash_periodic_k seed _ a b h, lattice_hash_periodic_k seed _ a b h]

theorem column_value_bounds (seed : Int) (sy : ℝ) (k : Int) :
    -1 ≤ column_value seed sy k ∧ column_value seed sy k ≤ 1 :=
  cos_interp_bounds _ _ _ _ _ (noise_real_bounds _) (noise_real_bounds _)

/-- The value `noise2d` is the cosine interpolation along `x`, in the cell the code
computes, of the column values. -/
theorem noise2d_eq_columns (x y : ℝ) (seed : Int) (frequency : ℝ) :
    noise2d x y seed frequency
      = interp_lattice (column_value seed (y * frequency)) (x * frequency) := by
  unfold interp_lattice column_value noise2d
  simp only
  rw [cos_interp_swap]
  have e0 : noise (iadd (iadd (lattice_index (x * frequency))
      (imul (lattice_index (y * frequency)) STRIDE)) seed)
      = lattice_hash seed (lattice_index (x * frequency)) (lattice_index (y * frequency)) := by
    unfold lattice_hash
    apply noise_congr
    apply iadd_emod _ _ _ _ _ rfl
    apply iadd_emod _ _ _ _ rfl
    exact imul_emod _ _ _ _ rfl rfl
  have e1 : noise (iadd (iadd (iadd (lattice_index (x * frequency))
      (imul (lattice_index (y * frequency)) STRIDE)) 1) seed)
      = lattice_hash seed (lattice_index (x * frequency) + 1)
          (lattice_index (y * frequency)) := by
    unfold lattice_hash
    apply noise_congr
    rw [iadd_emod _ _ (lattice_index (x * frequency)
      + lattice_index (y * frequency) * 1999 + 1) seed _ rfl]
    · apply congrArg (fun t : Int => t % 4294967296)
      ring
    · apply iadd_emod _ _ _ _ _ rfl
      apply iadd_emod _ _ _ _ rfl
      exact imul_emod _ _ _ _ rfl rfl
  have e2 : noise (iadd (iadd (lattice_index (x * frequency))
      (imul (iadd (lattice_index (y * frequency)) 1) STRIDE)) seed)
      = lattice_hash seed (lattice_index (x * frequency))
          (lattice_index (y * frequency) + 1) := by
    unfold lattice_hash
    apply noise_congr
    apply iadd_emod _ _ _ _ _ rfl
    apply iadd_emod _ _ _ _ rfl
    apply imul_emod _ _ _ _ _ rfl
    exact iadd_emod _ _ _ _ rfl rfl
  have e3 : noise (iadd (iadd (iadd (lattice_index (x * frequency))
      (imul (iadd (lattice_index (y * frequency)) 1) STRIDE)) 1) seed)
      = lattice_hash seed (lattice_index (x * frequency) + 1)
          (lattice_index (y * frequency) + 1) := by
    unfold lattice_hash
    apply noise_congr
    rw [iadd_emod _ _ (lattice_index (x * frequency)
      + (lattice_index (y * frequency) + 1) * 1999 + 1) seed _ rfl]
    · apply congrArg (fun t : Int => t % 4294967296)
      ring
    · apply iadd_emod _ _ _ _ _ rfl
      apply iadd_emod _ _ _ _ rfl
      apply imul_emod _ _ _ _ _ rfl
      exact iadd_emod _ _ _ _ rfl rfl
  rw [e0, e1, e2, e3]

theorem interp_floor_intCast (G : Int → ℝ) (m : Int) : interp_floor G (m : ℝ) = G m := by
  unfold interp_floor
  rw [Int.floor_intCast, sub_self, cos_interp_zero]

theorem lattice_index_of_nonpos_int (m : Int) (h0 : m ≤ 0) (h1 : -2147483648 < m) :
    lattice_index (m : ℝ) = m - 1 := by
  rw [lattice_index_nonpos _ (by exact_mod_cast h0) (by exact_mod_cast h1), Int.ceil_intCast]

/-- C4 (failing input): the call `noise2d(-1, -1, seed, 2)`, made for the first mesh
vertex in octave 1, has the integer lattice coordinates `m = n = -2`. The code's
lattice indices are `-3` and its fractional offsets are `rx = ry = 1`, not `0`; the
value returned at this input is the raw hash `noise(m + n * STRIDE + seed)`. -/
theorem noise2d_lattice_offsets_at_corner :
    (-1 : ℝ) * 2 = ((-2 : Int) : ℝ) ∧
    lattice_index ((-1 : ℝ) * 2) = -3 ∧
    lattice_offset ((-1 : ℝ) * 2) = 1 ∧
    lattice_offset ((-1 : ℝ) * 2) ≠ 0 ∧
    ∀ seed : Int,
      noise2d (-1) (-1) seed 2 = (noise (iadd (iadd (-2) (imul (-2) STRIDE)) seed) : ℝ) := by
  have e : ((-1 : ℝ) * 2) = (((-2 : Int)) : ℝ) := by norm_num
  have hi : lattice_index ((-1 : ℝ) * 2) = -3 := by
    rw [e, lattice_index_of_nonpos_int (-2) (by decide) (by decide)]
    rfl
  have ho : lattice_offset ((-1 : ℝ) * 2) = 1 := by
    unfold lattice_offset
    rw [hi]
    norm_num
  refine ⟨e, hi, ho, ?_, ?_⟩
  · rw [ho]
    exact one_ne_zero
  · intro seed
    rw [noise2d_eq_columns, interp_lattice_mid _ _ (by norm_num) (by norm_num), e,
      interp_floor_intCast]
    unfold column_value
    rw [← e, hi]
    have e1 : (-1 : ℝ) * 2 - (((-3 : Int)) : ℝ) = 1 := by norm_num
    rw [e1, cos_interp_one]
    have : noise (iadd (iadd (-2) (imul (-2) STRIDE)) seed) = lattice_hash seed (-2) (-3 + 1) := by
      unfold lattice_hash
      apply noise_congr
      apply iadd_emod _ _ _ _ _ rfl
      apply iadd_emod _ _ _ _ rfl
      exact imul_emod _ _ _ _ rfl rfl
    rw [this]

/-- C10 (failing input): for the scaled coordinate `s = -1 * 1` (the call
`noise2d(-1, -1, seed, 1)` made for the first mesh vertex) the code's lattice index is
`-2` although the floor is `-1`, and the fractional offset is `1`, outside `[0, 1)`. -/
theorem lattice_index_negative_integer :
    lattice_index ((-1 : ℝ) * 1) = -2 ∧ ⌊((-1 : ℝ) * 1)⌋ = -1 ∧
    lattice_offset ((-1 : ℝ) * 1) = 1 ∧ ¬ (lattice_offset ((-1 : ℝ) * 1) < 1) := by
  have e : ((-1 : ℝ) * 1) = (((-1 : Int)) : ℝ) := by norm_num
  have hi : lattice_index ((-1 : ℝ) * 1) = -2 := by
    rw [e, lattice_index_of_nonpos_int (-1) (by decide) (by decide)]
    rfl
  have ho : lattice_offset ((-1 : ℝ) * 1) = 1 := by
    unfold lattice_offset
    rw [hi]
    norm_num
  refine ⟨hi, ?_, ho, ?_⟩
  · rw [e, Int.floor_intCast]
  · rw [ho]
    exact lt_irrefl 1

/-- Away from the non-positive integers, and within `int` range, the code's lattice
index is the floor and the fractional offset lies in `[0, 1)`. -/
theorem lattice_index_eq_floor (s : ℝ) (hlo : -2147483647 ≤ s) (hhi : s < 2147483648)
    (hs : 0 < s ∨ (⌊s⌋ : ℝ) ≠ s) :
    lattice_index s = ⌊s⌋ ∧ 0 ≤ lattice_offset s ∧ lattice_offset s < 1 := by
  have hidx : lattice_index s = ⌊s⌋ := by
    by_cases h0 : 0 < s
    · exact lattice_index_pos s h0 hhi
    · have hne : (⌊s⌋ : ℝ) ≠ s := hs.resolve_left h0
      have hlt : (⌊s⌋ : ℝ) < s := lt_of_le_of_ne (Int.floor_le s) hne
      have hc : ⌈s⌉ = ⌊s⌋ + 1 := by
        rw [Int.ceil_eq_iff]
        constructor
        · push_cast
          linarith
        · push_cast
          exact (Int.lt_floor_add_one s).le
      rw [lattice_index_nonpos s (not_lt.mp h0) (by linarith), hc]
      ring
  refine ⟨hidx, ?_, ?_⟩
  · unfold lattice_offset
    rw [hidx]
    linarith [Int.floor_le s]
  · unfold lattice_offset
    rw [hidx]
    linarith [Int.lt_floor_add_one s]

/-! ## Lipschitz continuity of `noise2d` in `x` -/

theorem abs_cos_sub_cos_le (u v : ℝ) : |Real.cos u - Real.cos v| ≤ |u - v| := by
  rw [Real.cos_sub_cos, abs_mul, abs_mul]
  have h1 : |Real.sin ((u + v) / 2)| ≤ 1 := Real.abs_sin_le_one _
  have h2 : |Real.sin ((u - v) / 2)| ≤ |(u - v) / 2| := Real.abs_sin_le_abs
  have h3 : |(u - v) / 2| = |u - v| / 2 := by
    rw [abs_div]
    norm_num
  have h4 : |(-2 : ℝ)| = 2 := by norm_num
  rw [h4]
  rw [h3] at h2
  have h5 : 0 ≤ |Real.sin ((u - v) / 2)| := abs_nonneg _
  have h6 : 0 ≤ |Real.sin ((u + v) / 2)| := abs_nonneg _
  nlinarith

theorem cos_weight_lipschitz (a b : ℝ) :
    |cos_weight a - cos_weight b| ≤ Real.pi / 2 * |a - b| := by
  unfold cos_weight
  have h := abs_cos_sub_cos_le (b * Real.pi) (a * Real.pi)
  have e1 : (1 - Real.cos (a * Real.pi)) / 2 - (1 - Real.cos (b * Real.pi)) / 2
      = (Real.cos (b * Real.pi) - Real.cos (a * Real.pi)) / 2 := by ring
  have e2 : b * Real.pi - a * Real.pi = (b - a) * Real.pi := by ring
  rw [e2, abs_mul, abs_of_pos Real.pi_pos, abs_sub_comm b a] at h
  have h2 : |(2 : ℝ)| = 2 := by norm_num
  rw [e1, abs_div, h2]
  linarith

/-- On a closed cell `[k, k + 1]` the floor interpolation is the cosine blend of the
two end values, the right end included. -/
theorem interp_floor_cell (G : Int → ℝ) (k : Int) (s : ℝ) (h1 : (k : ℝ) ≤ s)
    (h2 : s ≤ (k : ℝ) + 1) :
    interp_floor G s = G k + (G (k + 1) - G k) * cos_weight (s - (k : ℝ)) := by
  rcases lt_or_eq_of_le h2 with h | h
  · have hf : ⌊s⌋ = k := by
      rw [Int.floor_eq_iff]
      exact ⟨h1, h⟩
    unfold interp_floor cos_interp
    rw [hf]
    ring
  · have hs : s = ((k + 1 : Int) : ℝ) := by
      push_cast
      exact h
    have e : s - (k : ℝ) = 1 := by linarith
    rw [e, cos_weight_one, hs, interp_floor_intCast]
    ring

theorem interp_floor_cell_lipschitz (G : Int → ℝ) (M : ℝ)
    (hM : ∀ k : Int, |G (k + 1) - G k| ≤ M) (k : Int) (s t : ℝ)
    (hs1 : (k : ℝ) ≤ s) (hs2 : s ≤ (k : ℝ) + 1) (ht1 : (k : ℝ) ≤ t) (ht2 : t ≤ (k : ℝ) + 1) :
    |interp_floor G t - interp_floor G s| ≤ M * (Real.pi / 2) * |t - s| := by
  rw [interp_floor_cell G k s hs1 hs2, interp_floor_cell G k t ht1 ht2]
  have e : G k + (G (k + 1) - G k) * cos_weight (t - (k : ℝ))
      - (G k + (G (k + 1) - G k) * cos_weight (s - (k : ℝ)))
      = (G (k + 1) - G k) * (cos_weight (t - (k : ℝ)) - cos_weight (s - (k : ℝ))) := by ring
  rw [e, abs_mul]
  have hw := cos_weight_lipschitz (t - (k : ℝ)) (s - (k : ℝ))
  have e2 : t - (k : ℝ) - (s - (k : ℝ)) = t - s := by ring
  rw [e2] at hw
  have hM0 : 0 ≤ M := le_trans (abs_nonneg _) (hM k)
  calc |G (k + 1) - G k| * |cos_weight (t - (k : ℝ)) - cos_weight (s - (k : ℝ))|
      ≤ M * (Real.pi / 2 * |t - s|) :=
        mul_le_mul (hM k) hw (abs_nonneg _) hM0
    _ = M * (Real.pi / 2) * |t - s| := by ring

/-- Chaining the cells between `s` and `t`. -/
theorem interp_floor_lipschitz_le (G : Int → ℝ) (M : ℝ)
    (hM : ∀ k : Int, |G (k + 1) - G k| ≤ M) (n : Nat) :
    ∀ s t : ℝ, s ≤ t → ⌊t⌋ - ⌊s⌋ = (n : Int) →
      |interp_floor G t - interp_floor G s| ≤ M * (Real.pi / 2) * (t - s) := by
  induction n with
  | zero =>
    intro s t hst hn
    have hf : ⌊t⌋ = ⌊s⌋ := by
      simp only [Nat.cast_zero] at hn
      omega
    have h := interp_floor_cell_lipschitz G M hM ⌊s⌋ s t (Int.floor_le s)
      (Int.lt_floor_add_one s).le (by rw [← hf]; exact Int.floor_le t)
      (by rw [← hf]; exact (Int.lt_floor_add_one t).le)
    rwa [abs_of_nonneg (sub_nonneg.mpr hst)] at h
  | succ n ih =>
    intro s t hst hn
    have hft : ⌊t⌋ = ⌊s⌋ + 1 + (n : Int) := by
      push_cast at hn
      omega
    have hmt : ((⌊s⌋ + 1 : Int) : ℝ) ≤ t := by
      have : ⌊s⌋ + 1 ≤ ⌊t⌋ := by omega
      exact le_trans (by exact_mod_cast this) (Int.floor_le t)
    have hsm : s ≤ ((⌊s⌋ + 1 : Int) : ℝ) := by
      push_cast
      exact (Int.lt_floor_add_one s).le
    have h1 := ih ((⌊s⌋ + 1 : Int) : ℝ) t hmt (by rw [Int.floor_intCast]; omega)
    have h2 := interp_floor_cell_lipschitz G M hM ⌊s⌋ s ((⌊s⌋ + 1 : Int) : ℝ) (Int.floor_le s)
      (Int.lt_floor_add_one s).le (by push_cast; linarith) (by push_cast; linarith)
    rw [abs_of_nonneg (sub_nonneg.mpr hsm)] at h2
    have e : interp_floor G t - interp_floor G s
        = (interp_floor G t - interp_floor G ((⌊s⌋ + 1 : Int) : ℝ))
          + (interp_floor G ((⌊s⌋ + 1 : Int) : ℝ) - interp_floor G s) := by ring
    rw [e]
    calc |(interp_floor G t - interp_floor G ((⌊s⌋ + 1 : Int) : ℝ))
          + (interp_floor G ((⌊s⌋ + 1 : Int) : ℝ) - interp_floor G s)|
        ≤ |interp_floor G t - interp_floor G ((⌊s⌋ + 1 : Int) : ℝ)|
          + |interp_floor G ((⌊s⌋ + 1 : Int) : ℝ) - interp_floor G s| := abs_add _ _
      _ ≤ M * (Real.pi / 2) * (t - ((⌊s⌋ + 1 : Int) : ℝ))
          + M * (Real.pi / 2) * (((⌊s⌋ + 1 : Int) : ℝ) - s) := add_le_add h1 h2
      _ = M * (Real.pi / 2) * (t - s) := by ring

theorem interp_floor_lipschitz (G : Int → ℝ) (M : ℝ)
    (hM : ∀ k : Int, |G (k + 1) - G k| ≤ M) (s t : ℝ) :
    |interp_floor G s - interp_floor G t| ≤ M * (Real.pi / 2) * |s - t| := by
  rcases le_total s t with h | h
  · have hfl : ⌊s⌋ ≤ ⌊t⌋ := Int.floor_mono h
    have hn : ⌊t⌋ - ⌊s⌋ = ((⌊t⌋ - ⌊s⌋).toNat : Int) := by
      rw [Int.toNat_of_nonneg (by omega)]
    have := interp_floor_lipschitz_le G M hM _ s t h hn
    rw [abs_sub_comm, abs_sub_comm s t, abs_of_nonneg (sub_nonneg.mpr h)]
    exact this
  · have hfl : ⌊t⌋ ≤ ⌊s⌋ := Int.floor_mono h
    have hn : ⌊s⌋ - ⌊t⌋ = ((⌊s⌋ - ⌊t⌋).toNat : Int) := by
      rw [Int.toNat_of_nonneg (by omega)]
    have := interp_floor_lipschitz_le G M hM _ t s h hn
    rw [abs_of_nonneg (sub_nonneg.mpr h)]
    exact this

theorem cos_interp_lipschitz (y0 y1 M : ℝ) (hM : |y1 - y0| ≤ M) (u v : ℝ) :
    |cos_interp y0 y1 u - cos_interp y0 y1 v| ≤ M * (Real.pi / 2) * |u - v| := by
  unfold cos_interp
  have e : y0 * (1 - cos_weight u) + y1 * cos_weight u
      - (y0 * (1 - cos_weight v) + y1 * cos_weight v)
      = (y1 - y0) * (cos_weight u - cos_weight v) := by ring
  rw [e, abs_mul]
  have hw := cos_weight_lipschitz u v
  have hM0 : 0 ≤ M := le_trans (abs_nonneg _) hM
  calc |y1 - y0| * |cos_weight u - cos_weight v|
      ≤ M * (Real.pi / 2 * |u - v|) := mul_le_mul hM hw (abs_nonneg _) hM0
    _ = M * (Real.pi / 2) * |u - v| := by ring

theorem cos_interp_even (y0 y1 : ℝ) (q : Int) : cos_interp y0 y1 (2 * (q : ℝ)) = y0 := by
  have h := cos_weight_periodic 0 q
  rw [zero_add, cos_weight_zero] at h
  unfold cos_interp
  simp only
  rw [h]
  ring

/-- The code's cell interpolation is Lipschitz on the whole real line: inside the
`int` range it is the floor interpolation, outside it is the interpolation in the fixed
cell at `INT_MIN`, and the two agree at `-2^31` and `2^31`. -/
theorem interp_lattice_lipschitz_le (G : Int → ℝ)
    (hG : ∀ a b : Int, a % 4294967296 = b % 4294967296 → G a = G b) (M : ℝ)
    (hM : ∀ k : Int, |G (k + 1) - G k| ≤ M) (s t : ℝ) (hst : s ≤ t) :
    |interp_lattice G t - interp_lattice G s| ≤ M * (Real.pi / 2) * (t - s) := by
  have hΦ := interp_floor_lipschitz G M hM
  have hH : ∀ u v : ℝ,
      |cos_interp (G (-2147483648)) (G (-2147483648 + 1)) (u - ((-2147483648 : Int) : ℝ))
        - cos_interp (G (-2147483648)) (G (-2147483648 + 1)) (v - ((-2147483648 : Int) : ℝ))|
        ≤ M * (Real.pi / 2) * |u - v| := by
    intro u v
    have h := cos_interp_lipschitz (G (-2147483648)) (G (-2147483648 + 1)) M
      (hM (-2147483648)) (u - ((-2147483648 : Int) : ℝ)) (v - ((-2147483648 : Int) : ℝ))
    have e : u - ((-2147483648 : Int) : ℝ) - (v - ((-2147483648 : Int) : ℝ)) = u - v := by ring
    rw [e] at h
    exact h
  have hΦhi : interp_floor G 2147483648 = G (-2147483648) := by
    have e : (2147483648 : ℝ) = ((2147483648 : Int) : ℝ) := by norm_num
    rw [e, interp_floor_intCast]
    exact hG _ _ (by decide)
  have hΦlo : interp_floor G (-2147483648) = G (-2147483648) := by
    have e : (-2147483648 : ℝ) = ((-2147483648 : Int) : ℝ) := by norm_num
    rw [e, interp_floor_intCast]
  have hHhi : cos_interp (G (-2147483648)) (G (-2147483648 + 1))
      (2147483648 - ((-2147483648 : Int) : ℝ)) = G (-2147483648) := by
    have e : (2147483648 : ℝ) - ((-2147483648 : Int) : ℝ) = 2 * ((2147483648 : Int) : ℝ) := by
      norm_num
    rw [e, cos_interp_even]
  have hHlo : cos_interp (G (-2147483648)) (G (-2147483648 + 1))
      (-2147483648 - ((-2147483648 : Int) : ℝ)) = G (-2147483648) := by
    have e : (-2147483648 : ℝ) - ((-2147483648 : Int) : ℝ) = 0 := by norm_num
    rw [e, cos_interp_zero]
  have habs : |t - s| = t - s := abs_of_nonneg (sub_nonneg.mpr hst)
  have hK : 0 ≤ M * (Real.pi / 2) :=
    mul_nonneg (le_trans (abs_nonneg _) (hM 0)) (by positivity)
  by_cases hs_out : s ≤ -2147483648 ∨ 2147483648 ≤ s
  · by_cases ht_out : t ≤ -2147483648 ∨ 2147483648 ≤ t
    · rw [interp_lattice_outer G s hs_out, interp_lattice_outer G t ht_out, ← habs]
      exact hH t s
    · have ht1 : -2147483648 < t := by
        by_contra hc
        exact ht_out (Or.inl (not_lt.mp hc))
      have ht2 : t < 2147483648 := by
        by_contra hc
        exact ht_out (Or.inr (not_lt.mp hc))
      have hs1 : s ≤ -2147483648 := by
        rcases hs_out with h | h
        · exact h
        · linarith
      rw [interp_lattice_outer G s hs_out, interp_lattice_mid G t ht1 ht2]
      have h1 := hΦ t (-2147483648)
      have h2 := hH (-2147483648) s
      rw [hΦlo] at h1
      rw [hHlo] at h2
      rw [abs_of_nonneg (by linarith : (0 : ℝ) ≤ t - -2147483648)] at h1
      rw [abs_of_nonneg (by linarith : (0 : ℝ) ≤ -2147483648 - s)] at h2
      have e : interp_floor G t
          - cos_interp (G (-2147483648)) (G (-2147483648 + 1)) (s - ((-2147483648 : Int) : ℝ))
          = (interp_floor G t - G (-2147483648)) + (G (-2147483648)
            - cos_interp (G (-2147483648)) (G (-2147483648 + 1))
              (s - ((-2147483648 : Int) : ℝ))) := by ring
      rw [e]
      calc _ ≤ |interp_floor G t - G (-2147483648)| + |G (-2147483648)
            - cos_interp (G (-2147483648)) (G (-2147483648 + 1))
              (s - ((-2147483648 : Int) : ℝ))| := abs_add _ _
        _ ≤ M * (Real.pi / 2) * (t - -2147483648)
            + M * (Real.pi / 2) * (-2147483648 - s) := add_le_add h1 h2
        _ = M * (Real.pi / 2) * (t - s) := by ring
  · have hs1 : -2147483648 < s := by
      by_contra hc
      exact hs_out (Or.inl (not_lt.mp hc))
    have hs2 : s < 2147483648 := by
      by_contra hc
      exact hs_out (Or.inr (not_lt.mp hc))
    by_cases ht2 : t < 2147483648
    · rw [interp_lattice_mid G s hs1 hs2, interp_lattice_mid G t (by linarith) ht2, ← habs]
      exact hΦ t s
    · have ht3 : 2147483648 ≤ t := not_lt.mp ht2
      rw [interp_lattice_mid G s hs1 hs2, interp_lattice_outer G t (Or.inr ht3)]
      have h1 := hH t 2147483648
      have h2 := hΦ 2147483648 s
      rw [hHhi] at h1
      rw [hΦhi] at h2
      rw [abs_of_nonneg (by linarith : (0 : ℝ) ≤ t - 2147483648)] at h1
      rw [abs_of_nonneg (by linarith : (0 : ℝ) ≤ 2147483648 - s)] at h2
      have e : cos_interp (G (-2147483648)) (G (-2147483648 + 1)) (t - ((-2147483648 : Int) : ℝ))
          - interp_floor G s
          = (cos_interp (G (-2147483648)) (G (-2147483648 + 1))
              (t - ((-2147483648 : Int) : ℝ)) - G (-2147483648))
            + (G (-2147483648) - interp_floor G s) := by ring
      rw [e]
      calc _ ≤ |cos_interp (G (-2147483648)) (G (-2147483648 + 1))
              (t - ((-2147483648 : Int) : ℝ)) - G (-2147483648)|
            + |G (-2147483648) - interp_floor G s| := abs_add _ _
        _ ≤ M * (Real.pi / 2) * (t - 2147483648)
            + M * (Real.pi / 2) * (2147483648 - s) := add_le_add h1 h2
        _ = M * (Real.pi / 2) * (t - s) := by ring

theorem interp_lattice_lipschitz (G : Int → ℝ)
    (hG : ∀ a b : Int, a % 4294967296 = b % 4294967296 → G a = G b) (M : ℝ)
    (hM : ∀ k : Int, |G (k + 1) - G k| ≤ M) (s t : ℝ) :
    |interp_lattice G s - interp_lattice G t| ≤ M * (Real.pi / 2) * |s - t| := by
  rcases le_total s t with h | h
  · rw [abs_sub_comm, abs_sub_comm s t, abs_of_nonneg (sub_nonneg.mpr h)]
    exact interp_lattice_lipschitz_le G hG M hM s t h
  · rw [abs_of_nonneg (sub_nonneg.mpr h)]
    exact interp_lattice_lipschitz_le G hG M hM t s h

/-- C9: `noise2d` is Lipschitz in `x`: for every frequency there is a constant `K`
(here `pi * |frequency|`) such that, for every seed, every `y` and all `x`, `x1`,
`|noise2d(x, y, seed, frequency) - noise2d(x1, y, seed, frequency)| <= K * |x - x1|`;
in particular there is no jump where `x * frequency` crosses an integer. -/
theorem noise2d_lipschitz_x (frequency : ℝ) :
    ∃ K : ℝ, ∀ (seed : Int) (y x x1 : ℝ),
      |noise2d x y seed frequency - noise2d x1 y seed frequency| ≤ K * |x - x1| := by
  refine ⟨Real.pi * |frequency|, ?_⟩
  intro seed y x x1
  rw [noise2d_eq_columns, noise2d_eq_columns]
  have hM : ∀ k : Int,
      |column_value seed (y * frequency) (k + 1) - column_value seed (y * frequency) k| ≤ 2 := by
    intro k
    rw [abs_le]
    have h1 := column_value_bounds seed (y * frequency) k
    have h2 := column_value_bounds seed (y * frequency) (k + 1)
    constructor <;> linarith [h1.1, h1.2, h2.1, h2.2]
  have h := interp_lattice_lipschitz (column_value seed (y * frequency))
    (column_value_periodic seed (y * frequency)) 2 hM (x * frequency) (x1 * frequency)
  have e : x * frequency - x1 * frequency = (x - x1) * frequency := by ring
  rw [e, abs_mul] at h
  calc _ ≤ 2 * (Real.pi / 2) * (|x - x1| * |frequency|) := h
    _ = Real.pi * |frequency| * |x - x1| := by ring

/-! ## Loop invariants -/

/-- Invariant rule for a counting loop `for (i = 0; i < n; ++i)`. -/
theorem foldl_range_invariant {σ : Type} (f : σ → Nat → σ) (P : Nat → σ → Prop) (n : Nat) :
    ∀ s : σ, P 0 s → (∀ i s, i < n → P i s → P (i + 1) (f s i)) →
      P n ((List.range n).foldl f s) := by
  induction n with
  | zero =>
    intro s h0 _
    simpa using h0
  | succ n ih =>
    intro s h0 hstep
    rw [List.range_succ, List.foldl_append]
    simp only [List.foldl_cons, List.foldl_nil]
    apply hstep n _ (Nat.lt_succ_self n)
    exact ih s h0 (fun i s hi hP => hstep i s (Nat.lt_succ_of_lt hi) hP)

/-- Invariant rule for the nested loops over rows `z < rows` and columns `x < cols`:
`P k` holds after `k` cells in row-major order. -/
theorem foldl_grid_invariant {σ : Type} (f : Nat → Nat → σ → σ) (P : Nat → σ → Prop)
    (rows cols : Nat) (s : σ) (h0 : P 0 s)
    (hstep : ∀ z x s, z < rows → x < cols → P (z * cols + x) s → P (z * cols + x + 1) (f z x s)) :
    P (rows * cols)
      ((List.range rows).foldl (fun st z => (List.range cols).foldl (fun st x => f z x st) st) s) := by
  apply foldl_range_invariant
    (fun st z => (List.range cols).foldl (fun st x => f z x st) st)
    (fun z st => P (z * cols) st) rows s
  · simpa using h0
  · intro z st hz hP
    have h := foldl_range_invariant (fun st x => f z x st) (fun x st => P (z * cols + x) st)
      cols st (by simpa using hP) (fun x st hx hPx => hstep z x st hz hx hPx)
    have e : (z + 1) * cols = z * cols + cols := by ring
    rw [e]
    exact h

theorem read_set_eq {α : Type} [Inhabited α] (l : List α) (i : Nat) (a : α)
    (h : i < l.length) : (l.set i a)[i]! = a := by
  rw [getElem!_pos (l.set i a) i (by simpa using h), List.getElem_set]
  simp

theorem read_set_ne {α : Type} [Inhabited α] (l : List α) (i j : Nat) (a : α)
    (h : i ≠ j) : (l.set i a)[j]! = l[j]! := by
  by_cases hj : j < l.length
  · rw [getElem!_pos (l.set i a) j (by simpa using hj), List.getElem_set, getElem!_pos l j hj]
    simp [h]
  · rw [getElem!_neg (l.set i a) j (by simpa using hj), getElem!_neg l j hj]

/-! ## The vertex loop -/

theorem grid_slot_lt (W D x z : Nat) (hx : x < W) (hz : z < D) : z * W + x < W * D := by
  have h1 : (z + 1) * W ≤ D * W := Nat.mul_le_mul_right W hz
  have h2 : (z + 1) * W = z * W + W := by ring
  have h3 : D * W = W * D := Nat.mul_comm D W
  omega

theorem grid_slot_inj (W x z x1 z1 : Nat) (hx : x < W) (hx1 : x1 < W)
    (h : z * W + x = z1 * W + x1) : x = x1 ∧ z = z1 := by
  have hW : 0 < W := by omega
  have e1 : (z * W + x) % W = x := by
    rw [Nat.add_comm, Nat.add_mul_mod_self_right, Nat.mod_eq_of_lt hx]
  have e2 : (z1 * W + x1) % W = x1 := by
    rw [Nat.add_comm, Nat.add_mul_mod_self_right, Nat.mod_eq_of_lt hx1]
  have e3 : (z * W + x) / W = z := by
    rw [Nat.add_comm, Nat.add_mul_div_right _ _ hW, Nat.div_eq_of_lt hx]
    simp
  have e4 : (z1 * W + x1) / W = z1 := by
    rw [Nat.add_comm, Nat.add_mul_div_right _ _ hW, Nat.div_eq_of_lt hx1]
    simp
  constructor
  · rw [← e1, ← e2, h]
  · rw [← e3, ← e4, h]

/-- The vertex loop keeps the buffer size and stores the vertex of grid point `(x, z)`
in slot `z * W + x`. -/
theorem vertex_loop_spec (W D : Nat) (height : ℝ → ℝ → ℝ) :
    (vertex_loop W D height).length = W * D ∧
    ∀ x z, x < W → z < D →
      (vertex_loop W D height)[z * W + x]! = grid_vertex W D height x z := by
  have h := foldl_grid_invariant
    (fun z x (vs : List Vertex) => vs.set (z * W + x) (grid_vertex W D height x z))
    (fun k vs => vs.length = W * D ∧
      ∀ x z, x < W → z * W + x < k → vs[z * W + x]! = grid_vertex W D height x z)
    D W (List.replicate (W * D) default)
    ⟨by simp, fun x z _ hk => absurd hk (Nat.not_lt_zero _)⟩
    (by
      intro z x vs hz hx hP
      obtain ⟨hlen, hval⟩ := hP
      refine ⟨by simpa using hlen, ?_⟩
      intro x1 z1 hx1 hk
      by_cases heq : z * W + x = z1 * W + x1
      · obtain ⟨e1, e2⟩ := grid_slot_inj W x z x1 z1 hx hx1 heq
        subst e1
        subst e2
        exact read_set_eq _ _ _ (by rw [hlen]; exact grid_slot_lt W D x z hx hz)
      · rw [read_set_ne _ _ _ _ heq]
        exact hval x1 z1 hx1 (by omega))
  refine ⟨h.1, ?_⟩
  intro x z hx hz
  apply h.2 x z hx
  have := grid_slot_lt W D x z hx hz
  rw [Nat.mul_comm D W]
  exact this

/-! ## The index loop -/

theorem read_set {α : Type} [Inhabited α] (l : List α) (i j : Nat) (a : α)
    (h : i < l.length) : (l.set i a)[j]! = if i = j then a else l[j]! := by
  by_cases hij : i = j
  · subst hij
    rw [if_pos rfl]
    exact read_set_eq l i a h
  · rw [if_neg hij]
    exact read_set_ne l i j a hij

theorem range_add_six (n : Nat) :
    List.range (n + 6) = List.range n ++ [n, n + 1, n + 2, n + 3, n + 4, n + 5] := by
  simp [List.range_succ]

theorem num_triangles_slots (W D : Nat) : NUM_TRIANGLES W D * 3 = 6 * ((D - 1) * (W - 1)) := by
  unfold NUM_TRIANGLES
  ring

/-- State of the index loop after `k` cells in row-major order. -/
theorem index_cell_step (W D : Nat) (z x : Nat) (st : IndexState) (hz : z < D - 1)
    (hx : x < W - 1)
    (hP : st.triangle = 2 * (z * (W - 1) + x) ∧ st.indices.length = NUM_TRIANGLES W D * 3 ∧
      st.written = List.range (6 * (z * (W - 1) + x)) ∧
      ∀ x1 z1 r, x1 < W - 1 → z1 * (W - 1) + x1 < z * (W - 1) + x → r < 6 →
        st.indices[6 * (z1 * (W - 1) + x1) + r]! = (cell_indices W x1 z1)[r]!) :
    (index_cell W x z st).triangle = 2 * (z * (W - 1) + x + 1) ∧
    (index_cell W x z st).indices.length = NUM_TRIANGLES W D * 3 ∧
    (index_cell W x z st).written = List.range (6 * (z * (W - 1) + x + 1)) ∧
    ∀ x1 z1 r, x1 < W - 1 → z1 * (W - 1) + x1 < z * (W - 1) + x + 1 → r < 6 →
      (index_cell W x z st).indices[6 * (z1 * (W - 1) + x1) + r]! = (cell_indices W x1 z1)[r]! := by
  obtain ⟨ht, hlen, hw, hval⟩ := hP
  have hk : z * (W - 1) + x < (D - 1) * (W - 1) := by
    have := grid_slot_lt (W - 1) (D - 1) x z hx hz
    rw [Nat.mul_comm (D - 1)]
    exact this
  have hL : 6 * (z * (W - 1) + x) + 5 < st.indices.length := by
    rw [hlen, num_triangles_slots]
    omega
  generalize hkdef : z * (W - 1) + x = k at *
  refine ⟨?_, ?_, ?_, ?_⟩
  · simp only [index_cell, ht]
    omega
  · simp only [index_cell, List.length_set, hlen]
  · simp only [index_cell, ht, hw]
    have e : 6 * (k + 1) = 6 * k + 6 := by ring
    rw [e, range_add_six]
    have e1 : 3 * (2 * k) = 6 * k := by ring
    have e2 : 3 * (2 * k + 1) = 6 * k + 3 := by ring
    rw [e1, e2]
  · intro x1 z1 r hx1 hlt hr
    simp only [index_cell, ht]
    have hl0 := hL
    rw [read_set _ _ _ _ (by simp only [List.length_set]; omega),
      read_set _ _ _ _ (by simp only [List.length_set]; omega),
      read_set _ _ _ _ (by simp only [List.length_set]; omega),
      read_set _ _ _ _ (by simp only [List.length_set]; omega),
      read_set _ _ _ _ (by simp only [List.length_set]; omega),
      read_set _ _ _ _ (by omega)]
    by_cases hlt2 : z1 * (W - 1) + x1 < k
    · rw [if_neg (by omega), if_neg (by omega), if_neg (by omega), if_neg (by omega),
        if_neg (by omega), if_neg (by omega)]
      exact hval x1 z1 r hx1 hlt2 hr
    · have heq : z1 * (W - 1) + x1 = z * (W - 1) + x := by omega
      obtain ⟨e1, e2⟩ := grid_slot_inj (W - 1) x1 z1 x z hx1 hx heq
      subst e1
      subst e2
      rw [hkdef]
      have hr6 : r = 0 ∨ r = 1 ∨ r = 2 ∨ r = 3 ∨ r = 4 ∨ r = 5 := by omega
      rcases hr6 with h | h | h | h | h | h <;> subst h <;> simp only [cell_indices] <;>
        split_ifs <;> first | rfl | omega

/-- The index loop: final counter, buffer size, the slots written (each slot once, in
increasing order) and the content of the six slots of every cell. -/
theorem index_loop_spec (W D : Nat) :
    (index_loop W D).triangle = 2 * ((D - 1) * (W - 1)) ∧
    (index_loop W D).indices.length = NUM_TRIANGLES W D * 3 ∧
    (index_loop W D).written = List.range (6 * ((D - 1) * (W - 1))) ∧
    ∀ x z r, x < W - 1 → z < D - 1 → r < 6 →
      (index_loop W D).indices[6 * (z * (W - 1) + x) + r]! = (cell_indices W x z)[r]! := by
  have h := foldl_grid_invariant (fun z x st => index_cell W x z st)
    (fun k st => st.triangle = 2 * k ∧ st.indices.length = NUM_TRIANGLES W D * 3 ∧
      st.written = List.range (6 * k) ∧
      ∀ x1 z1 r, x1 < W - 1 → z1 * (W - 1) + x1 < k → r < 6 →
        st.indices[6 * (z1 * (W - 1) + x1) + r]! = (cell_indices W x1 z1)[r]!)
    (D - 1) (W - 1)
    { indices := List.replicate (NUM_TRIANGLES W D * 3) 0, triangle := 0, written := [] }
    ⟨rfl, by simp, by simp, fun x z r _ hk _ => absurd hk (Nat.not_lt_zero _)⟩
    (fun z x st hz hx hP => index_cell_step W D z x st hz hx hP)
  refine ⟨h.1, h.2.1, h.2.2.1, ?_⟩
  intro x z r hx hz hr
  have hk := grid_slot_lt (W - 1) (D - 1) x z hx hz
  rw [Nat.mul_comm (W - 1)] at hk
  exact h.2.2.2 x z r hx hk hr

/-- Every slot of the index buffer belongs to a cell. -/
theorem slot_decompose (W D j : Nat) (hj : j < NUM_TRIANGLES W D * 3) :
    ∃ x z r, x < W - 1 ∧ z < D - 1 ∧ r < 6 ∧ j = 6 * (z * (W - 1) + x) + r := by
  rw [num_triangles_slots] at hj
  have hc : j / 6 < (D - 1) * (W - 1) := by omega
  have hW : 0 < W - 1 := by
    rcases Nat.eq_zero_or_pos (W - 1) with h | h
    · rw [h] at hc
      simp at hc
    · exact h
  refine ⟨(j / 6) % (W - 1), (j / 6) / (W - 1), j % 6, Nat.mod_lt _ hW, ?_, Nat.mod_lt _ (by decide), ?_⟩
  · exact (Nat.div_lt_iff_lt_mul hW).mpr hc
  · rw [Nat.div_add_mod']
    omega

theorem cell_indices_0 (W x z : Nat) : (cell_indices W x z)[0]! = x + z * W := rfl

theorem cell_indices_1 (W x z : Nat) : (cell_indices W x z)[1]! = x + (z + 1) * W := rfl

theorem cell_indices_2 (W x z : Nat) : (cell_indices W x z)[2]! = x + z * W + 1 := rfl

theorem cell_indices_3 (W x z : Nat) : (cell_indices W x z)[3]! = x + z * W + 1 := rfl

theorem cell_indices_4 (W x z : Nat) : (cell_indices W x z)[4]! = x + (z + 1) * W := rfl

theorem cell_indices_5 (W x z : Nat) : (cell_indices W x z)[5]! = x + (z + 1) * W + 1 := rfl

theorem cell_indices_lt (W D x z r : Nat) (hx : x < W - 1) (hz : z < D - 1) (hr : r < 6) :
    (cell_indices W x z)[r]! < W * D := by
  have h1 := grid_slot_lt W D (x + 1) (z + 1) (by omega) (by omega)
  have e : (z + 1) * W = z * W + W := by ring
  have hr6 : r = 0 ∨ r = 1 ∨ r = 2 ∨ r = 3 ∨ r = 4 ∨ r = 5 := by omega
  rcases hr6 with h | h | h | h | h | h <;> subst h <;>
    simp only [cell_indices_0, cell_indices_1, cell_indices_2, cell_indices_3,
      cell_indices_4, cell_indices_5] <;> omega

/-- Reading slot `j` of the index buffer. -/
theorem index_loop_read_lt (W D j : Nat) (hj : j < NUM_TRIANGLES W D * 3) :
    (index_loop W D).indices[j]! < W * D := by
  obtain ⟨x, z, r, hx, hz, hr, rfl⟩ := slot_decompose W D j hj
  rw [(index_loop_spec W D).2.2.2 x z r hx hz hr]
  exact cell_indices_lt W D x z r hx hz hr

/-- C7: with `width = depth = 2` the vertex loop produces exactly four vertices, in
order at plane coordinates `(-1,-1)`, `(1,-1)`, `(-1,1)`, `(1,1)`, each with `y` equal to
`make_height` at those coordinates, and the index loop produces exactly two triangles,
`(0,2,1)` then `(1,2,3)`. -/
theorem mesh_two_by_two (seed : Int) :
    (vertex_loop 2 2 (make_height seed)).map (fun v => v.position)
      = [vec3 (-1) (make_height seed (-1) (-1)) (-1),
         vec3 1 (make_height seed 1 (-1)) (-1),
         vec3 (-1) (make_height seed (-1) 1) 1,
         vec3 1 (make_height seed 1 1) 1] ∧
    (vertex_loop 2 2 (make_height seed)).length = 4 ∧
    (index_loop 2 2).indices = [0, 2, 1, 1, 2, 3] ∧
    (index_loop 2 2).triangle = 2 ∧
    (index_loop 2 2).indices.length = 3 * 2 := by
  refine ⟨?_, ?_, by decide, by decide, by decide⟩
  · simp only [vertex_loop, List.range_succ, List.range_zero, List.nil_append,
      List.foldl_cons, List.foldl_nil, List.cons_append, List.replicate, grid_vertex]
    norm_num [List.set, vec3]
  · exact (vertex_loop_spec 2 2 _).1

/-! ## The normal passes -/

theorem read_replicate_zero (n v : Nat) : (List.replicate n 0)[v]! = 0 := by
  by_cases h : v < (List.replicate n 0).length
  · rw [getElem!_pos (List.replicate n 0) v h, List.getElem_replicate]
  · rw [getElem!_neg _ v h]
    rfl

theorem incr_length (l : List Nat) (j : Nat) : (incr l j).length = l.length := by
  unfold incr
  simp

theorem incr_read (l : List Nat) (j v : Nat) (h : j < l.length) :
    (incr l j)[v]! = l[v]! + (if j = v then 1 else 0) := by
  unfold incr
  rw [read_set _ _ _ _ h]
  by_cases hjv : j = v
  · subst hjv
    simp
  · simp [hjv]

theorem take_triangle (idx : List Nat) (i : Nat) (h : i * 3 + 2 < idx.length) :
    idx.take ((i + 1) * 3) = idx.take (i * 3) ++ [idx[i * 3]!, idx[i * 3 + 1]!, idx[i * 3 + 2]!] := by
  have e : (i + 1) * 3 = i * 3 + 1 + 1 + 1 := by ring
  rw [e, List.take_succ, List.take_succ, List.take_succ,
    List.getElem?_eq_getElem (by omega : i * 3 < idx.length),
    List.getElem?_eq_getElem (by omega : i * 3 + 1 < idx.length),
    List.getElem?_eq_getElem (by omega : i * 3 + 1 + 1 < idx.length),
    getElem!_pos idx (i * 3) (by omega), getElem!_pos idx (i * 3 + 1) (by omega),
    getElem!_pos idx (i * 3 + 2) (by omega)]
  simp only [Option.toList, List.append_assoc, List.cons_append, List.nil_append]

theorem count_triangle (v a b c : Nat) :
    List.count v [a, b, c]
      = (if a = v then 1 else 0) + (if b = v then 1 else 0) + (if c = v then 1 else 0) := by
  simp only [List.count_cons, List.count_nil, beq_iff_eq]
  omega

/-- The first normal pass: buffer sizes, the face normal of every triangle, and the
share count of every vertex (the number of its occurrences in the index buffer). -/
theorem face_pass_spec (W D : Nat) (vs : List Vertex) (idx : List Nat)
    (hlen : idx.length = NUM_TRIANGLES W D * 3)
    (hb : ∀ j, j < NUM_TRIANGLES W D * 3 → idx[j]! < W * D) :
    (face_pass W D vs idx).1.length = NUM_TRIANGLES W D ∧
    (face_pass W D vs idx).2.length = W * D ∧
    (∀ i, i < NUM_TRIANGLES W D → (face_pass W D vs idx).1[i]! = v3_norm (face_cross vs idx i)) ∧
    (∀ v, (face_pass W D vs idx).2[v]! = List.count v idx) := by
  have h := foldl_range_invariant (face_step vs idx)
    (fun i st => st.1.length = NUM_TRIANGLES W D ∧ st.2.length = W * D ∧
      (∀ j, j < i → st.1[j]! = v3_norm (face_cross vs idx j)) ∧
      (∀ v, st.2[v]! = List.count v (idx.take (i * 3))))
    (NUM_TRIANGLES W D)
    (List.replicate (NUM_TRIANGLES W D) default, List.replicate (W * D) 0)
    ⟨by simp, by simp, fun j hj => absurd hj (Nat.not_lt_zero _),
      fun v => by simp [read_replicate_zero]⟩
    (by
      intro i st hi hP
      obtain ⟨h1, h2, h3, h4⟩ := hP
      have hb1 := hb (i * 3) (by omega)
      have hb2 := hb (i * 3 + 1) (by omega)
      have hb3 := hb (i * 3 + 2) (by omega)
      refine ⟨?_, ?_, ?_, ?_⟩
      · simp only [face_step, List.length_set, h1]
      · simp only [face_step, incr_length, h2]
      · intro j hj
        simp only [face_step]
        rw [read_set _ _ _ _ (by omega)]
        by_cases hij : i = j
        · subst hij
          rw [if_pos rfl]
          rfl
        · rw [if_neg hij]
          exact h3 j (by omega)
      · intro v
        simp only [face_step]
        rw [incr_read _ _ _ (by rw [incr_length, incr_length, h2]; exact hb3),
          incr_read _ _ _ (by rw [incr_length, h2]; exact hb2),
          incr_read _ _ _ (by rw [h2]; exact hb1), h4 v,
          take_triangle idx i (by omega), List.count_append, count_triangle]
        omega)
  obtain ⟨h1, h2, h3, h4⟩ := h
  refine ⟨h1, h2, h3, ?_⟩
  intro v
  unfold face_pass
  rw [h4 v, List.take_of_length_le (by omega)]

theorem mem_of_read (l : List Nat) (j v : Nat) (hj : j < l.length) (h : l[j]! = v) :
    v ∈ l := by
  rw [getElem!_pos l j hj] at h
  rw [← h]
  exact List.getElem_mem hj

theorem cell_slot_lt (W D x z r : Nat) (hx : x < W - 1) (hz : z < D - 1) (hr : r < 6) :
    6 * (z * (W - 1) + x) + r < (index_loop W D).indices.length := by
  rw [(index_loop_spec W D).2.1, num_triangles_slots]
  have := grid_slot_lt (W - 1) (D - 1) x z hx hz
  rw [Nat.mul_comm (D - 1)]
  omega

/-- Every grid vertex is a corner of some cell, so it occurs in the index buffer. -/
theorem vertex_referenced (W D : Nat) (hW : 2 ≤ W) (hD : 2 ≤ D) (v : Nat) (hv : v < W * D) :
    v ∈ (index_loop W D).indices := by
  have hW0 : 0 < W := by omega
  have hx : v % W < W := Nat.mod_lt _ hW0
  have hz : v / W < D := by
    rw [Nat.div_lt_iff_lt_mul hW0, Nat.mul_comm]
    exact hv
  have hv2 : v = v % W + v / W * W := by
    rw [Nat.mul_comm]
    exact (Nat.mod_add_div v W).symm
  generalize v % W = x at hx hv2
  generalize v / W = z at hz hv2
  have hspec := (index_loop_spec W D).2.2.2
  by_cases hx1 : x < W - 1
  · by_cases hz1 : z < D - 1
    · apply mem_of_read _ _ v (cell_slot_lt W D x z 0 hx1 hz1 (by decide))
      rw [hspec x z 0 hx1 hz1 (by decide), cell_indices_0]
      omega
    · have hz2 : z - 1 < D - 1 := by omega
      apply mem_of_read _ _ v (cell_slot_lt W D x (z - 1) 1 hx1 hz2 (by decide))
      rw [hspec x (z - 1) 1 hx1 hz2 (by decide), cell_indices_1]
      have : z - 1 + 1 = z := by omega
      rw [this]
      omega
  · have hx2 : x - 1 < W - 1 := by omega
    by_cases hz1 : z < D - 1
    · apply mem_of_read _ _ v (cell_slot_lt W D (x - 1) z 2 hx2 hz1 (by decide))
      rw [hspec (x - 1) z 2 hx2 hz1 (by decide), cell_indices_2]
      omega
    · have hz2 : z - 1 < D - 1 := by omega
      apply mem_of_read _ _ v (cell_slot_lt W D (x - 1) (z - 1) 5 hx2 hz2 (by decide))
      rw [hspec (x - 1) (z - 1) 5 hx2 hz2 (by decide), cell_indices_5]
      have : z - 1 + 1 = z := by omega
      rw [this]
      omega

theorem share_count_eq_count (W D : Nat) (vs : List Vertex) (v : Nat) :
    (face_pass W D vs (index_loop W D).indices).2[v]!
      = List.count v (index_loop W D).indices :=
  (face_pass_spec W D vs _ (index_loop_spec W D).2.1
    (fun j hj => index_loop_read_lt W D j hj)).2.2.2 v

/-- C8: for `W >= 2`, `D >= 2`, after the first normal pass every entry of
`vertex_share_count` is at least `1`: each of the `W * D` vertices occurs in the index
buffer, so the guard `share_count > 0` of the third pass holds for every vertex. -/
theorem share_count_pos (W D : Nat) (hW : 2 ≤ W) (hD : 2 ≤ D) (height : ℝ → ℝ → ℝ) :
    ∀ i, i < W * D →
      1 ≤ (face_pass W D (vertex_loop W D height) (index_loop W D).indices).2[i]! ∧
      i ∈ (index_loop W D).indices := by
  intro i hi
  have hm := vertex_referenced W D hW hD i hi
  refine ⟨?_, hm⟩
  rw [share_count_eq_count]
  exact List.count_pos_iff.mpr hm

/-- C8 (witness): a `2 x 3` grid. -/
theorem share_count_pos_witness :
    2 ≤ 2 ∧ 2 ≤ 3 ∧
    (∀ i, i < 2 * 3 →
      1 ≤ (face_pass 2 3 (vertex_loop 2 3 (fun _ _ => 0)) (index_loop 2 3).indices).2[i]! ∧
      i ∈ (index_loop 2 3).indices) :=
  ⟨by decide, by decide, share_count_pos 2 3 (by decide) (by decide) (fun _ _ => 0)⟩

/-! ## Geometry of the emitted triangles -/

theorem vertex_position (W D : Nat) (height : ℝ → ℝ → ℝ) (x z : Nat) (hx : x < W)
    (hz : z < D) :
    (vertex_loop W D height)[x + z * W]!.position
      = ⟨-1 + 2 * (x : ℝ) / ((W : ℝ) - 1),
         height (-1 + 2 * (x : ℝ) / ((W : ℝ) - 1)) (-1 + 2 * (z : ℝ) / ((D : ℝ) - 1)),
         -1 + 2 * (z : ℝ) / ((D : ℝ) - 1)⟩ := by
  rw [Nat.add_comm, (vertex_loop_spec W D height).2 x z hx hz]
  rfl

/-- The three corners of triangle `t`: the first or the second triangle of a cell. -/
theorem triangle_corners (W D t : Nat) (ht : t < NUM_TRIANGLES W D) :
    ∃ x z, x < W - 1 ∧ z < D - 1 ∧
      (((index_loop W D).indices[t * 3]! = x + z * W ∧
        (index_loop W D).indices[t * 3 + 1]! = x + (z + 1) * W ∧
        (index_loop W D).indices[t * 3 + 2]! = (x + 1) + z * W) ∨
       ((index_loop W D).indices[t * 3]! = (x + 1) + z * W ∧
        (index_loop W D).indices[t * 3 + 1]! = x + (z + 1) * W ∧
        (index_loop W D).indices[t * 3 + 2]! = (x + 1) + (z + 1) * W)) := by
  obtain ⟨x, z, r, hx, hz, hr, hj⟩ := slot_decompose W D (t * 3) (by omega)
  have hspec := (index_loop_spec W D).2.2.2
  refine ⟨x, z, hx, hz, ?_⟩
  have hr03 : r = 0 ∨ r = 3 := by omega
  rcases hr03 with h | h
  · subst h
    left
    have e1 : t * 3 + 1 = 6 * (z * (W - 1) + x) + 1 := by omega
    have e2 : t * 3 + 2 = 6 * (z * (W - 1) + x) + 2 := by omega
    rw [e1, e2, hj, hspec x z 0 hx hz (by decide), hspec x z 1 hx hz (by decide),
      hspec x z 2 hx hz (by decide), cell_indices_0, cell_indices_1, cell_indices_2]
    refine ⟨rfl, rfl, ?_⟩
    omega
  · subst h
    right
    have e1 : t * 3 + 1 = 6 * (z * (W - 1) + x) + 4 := by omega
    have e2 : t * 3 + 2 = 6 * (z * (W - 1) + x) + 5 := by omega
    rw [e1, e2, hj, hspec x z 3 hx hz (by decide), hspec x z 4 hx hz (by decide),
      hspec x z 5 hx hz (by decide), cell_indices_3, cell_indices_4, cell_indices_5]
    refine ⟨?_, rfl, ?_⟩ <;> omega

theorem grid_spacing (W : Nat) (hW : 2 ≤ W) (x : Nat) :
    (-1 + 2 * ((x + 1 : Nat) : ℝ) / ((W : ℝ) - 1)) - (-1 + 2 * (x : ℝ) / ((W : ℝ) - 1))
      = 2 / ((W : ℝ) - 1) := by
  have h : (0 : ℝ) < (W : ℝ) - 1 := by
    have : (2 : ℝ) ≤ (W : ℝ) := by exact_mod_cast hW
    linarith
  push_cast
  field_simp
  ring

theorem grid_spacing_pos (W : Nat) (hW : 2 ≤ W) : (0 : ℝ) < 2 / ((W : ℝ) - 1) := by
  have h : (0 : ℝ) < (W : ℝ) - 1 := by
    have : (2 : ℝ) ≤ (W : ℝ) := by exact_mod_cast hW
    linarith
  positivity

/-- The cross product of every emitted triangle, for an arbitrary height function: the
`y` component is the product of the grid spacings, and the `x` and `z` components are
products of a spacing and a height difference. -/
theorem face_cross_components (W D : Nat) (hW : 2 ≤ W) (hD : 2 ≤ D) (height : ℝ → ℝ → ℝ)
    (t : Nat) (ht : t < NUM_TRIANGLES W D) :
    (face_cross (vertex_loop W D height) (index_loop W D).indices t).y
        = 2 / ((W : ℝ) - 1) * (2 / ((D : ℝ) - 1)) ∧
    ((∀ a b, height a b = 0) →
      (face_cross (vertex_loop W D height) (index_loop W D).indices t).x = 0 ∧
      (face_cross (vertex_loop W D height) (index_loop W D).indices t).z = 0) := by
  obtain ⟨x, z, hx, hz, hc⟩ := triangle_corners W D t ht
  have hsx := grid_spacing W hW x
  have hsz := grid_spacing D hD z
  rcases hc with ⟨h1, h2, h3⟩ | ⟨h1, h2, h3⟩
  · unfold face_cross
    simp only
    rw [h1, h2, h3, vertex_position W D height x z (by omega) (by omega),
      vertex_position W D height x (z + 1) (by omega) (by omega),
      vertex_position W D height (x + 1) z (by omega) (by omega)]
    simp only [v3_cross, v3_sub]
    refine ⟨?_, ?_⟩
    · rw [← hsx, ← hsz]
      ring
    · intro hflat
      simp only [hflat]
      constructor <;> ring
  · unfold face_cross
    simp only
    rw [h1, h2, h3, vertex_position W D height (x + 1) z (by omega) (by omega),
      vertex_position W D height x (z + 1) (by omega) (by omega),
      vertex_position W D height (x + 1) (z + 1) (by omega) (by omega)]
    simp only [v3_cross, v3_sub]
    refine ⟨?_, ?_⟩
    · rw [← hsx, ← hsz]
      ring
    · intro hflat
      simp only [hflat]
      constructor <;> ring

theorem v3_length_pos_of_y (v : vec3_t) (h : 0 < v.y) : 0 < v3_length v := by
  unfold v3_length
  apply Real.sqrt_pos.mpr
  nlinarith [mul_self_nonneg v.x, mul_self_nonneg v.z, mul_pos h h]

theorem v3_norm_y_pos (v : vec3_t) (h : 0 < v.y) : 0 < (v3_norm v).y := by
  have hl := v3_length_pos_of_y v h
  unfold v3_norm
  simp only
  rw [if_pos hl]
  exact div_pos h hl

theorem v3_norm_up (a : ℝ) (h : 0 < a) : v3_norm ⟨0, a, 0⟩ = ⟨0, 1, 0⟩ := by
  have hl : v3_length ⟨0, a, 0⟩ = a := by
    unfold v3_length
    simp only [mul_zero, zero_add, add_zero]
    exact Real.sqrt_mul_self h.le
  unfold v3_norm
  simp only
  rw [hl, if_pos h]
  ext
  · simp
  · exact div_self h.ne'
  · simp

/-- C5: for `W >= 2`, `D >= 2` and every height function, each of the
`2 * (W - 1) * (D - 1)` triangles `(i1, i2, i3)` emitted by the index loop has a cross
product `(p2 - p1) x (p3 - p1)` whose `y` component equals the product of the grid
spacings `2 / (W - 1) * (2 / (D - 1))` and is strictly positive; the normalised face
normal stored by the first normal pass has `y > 0` as well. -/
theorem winding_faces_up (W D : Nat) (hW : 2 ≤ W) (hD : 2 ≤ D) (height : ℝ → ℝ → ℝ) :
    ∀ t, t < 2 * (W - 1) * (D - 1) →
      (face_cross (vertex_loop W D height) (index_loop W D).indices t).y
        = 2 / ((W : ℝ) - 1) * (2 / ((D : ℝ) - 1)) ∧
      0 < (face_cross (vertex_loop W D height) (index_loop W D).indices t).y ∧
      0 < (v3_norm (face_cross (vertex_loop W D height) (index_loop W D).indices t)).y ∧
      0 < ((face_pass W D (vertex_loop W D height) (index_loop W D).indices).1[t]!).y := by
  intro t ht
  have ht2 : t < NUM_TRIANGLES W D := ht
  have hy := (face_cross_components W D hW hD height t ht2).1
  have hpos : 0 < (face_cross (vertex_loop W D height) (index_loop W D).indices t).y := by
    rw [hy]
    exact mul_pos (grid_spacing_pos W hW) (grid_spacing_pos D hD)
  refine ⟨hy, hpos, v3_norm_y_pos _ hpos, ?_⟩
  rw [(face_pass_spec W D _ _ (index_loop_spec W D).2.1
    (fun j hj => index_loop_read_lt W D j hj)).2.2.1 t ht2]
  exact v3_norm_y_pos _ hpos

/-- C5 (witness): a `3 x 3` grid with a steep height function. -/
theorem winding_faces_up_witness :
    2 ≤ 3 ∧ 2 ≤ 3 ∧
    (∀ t, t < 2 * (3 - 1) * (3 - 1) →
      (face_cross (vertex_loop 3 3 (fun a b => 1000 * a * b)) (index_loop 3 3).indices t).y
        = 2 / (((3 : Nat) : ℝ) - 1) * (2 / (((3 : Nat) : ℝ) - 1)) ∧
      0 < (face_cross (vertex_loop 3 3 (fun a b => 1000 * a * b)) (index_loop 3 3).indices t).y ∧
      0 < (v3_norm (face_cross (vertex_loop 3 3 (fun a b => 1000 * a * b))
        (index_loop 3 3).indices t)).y ∧
      0 < ((face_pass 3 3 (vertex_loop 3 3 (fun a b => 1000 * a * b))
        (index_loop 3 3).indices).1[t]!).y) :=
  ⟨by decide, by decide,
    winding_faces_up 3 3 (by decide) (by decide) (fun a b => 1000 * a * b)⟩

/-! ## Accumulation and averaging of the normals -/

theorem add_normal_length (l : List Vertex) (j : Nat) (n : vec3_t) :
    (add_normal l j n).length = l.length := by
  unfold add_normal
  simp

theorem add_normal_normal (l : List Vertex) (j v : Nat) (n : vec3_t) (h : j < l.length) :
    (add_normal l j n)[v]!.normal = if j = v then v3_add l[v]!.normal n else l[v]!.normal := by
  unfold add_normal
  rw [read_set _ _ _ _ h]
  by_cases hjv : j = v
  · subst hjv
    simp
  · simp [hjv]

/-- The second normal pass when every face normal is `(0, 1, 0)` and every vertex
normal starts at zero: each vertex accumulates its share count in the `y` component. -/
theorem accumulate_pass_flat (W D : Nat) (idx : List Nat) (sn : List vec3_t) (vs : List Vertex)
    (hlen : idx.length = NUM_TRIANGLES W D * 3)
    (hb : ∀ j, j < NUM_TRIANGLES W D * 3 → idx[j]! < W * D)
    (hsn : ∀ i, i < NUM_TRIANGLES W D → sn[i]! = ⟨0, 1, 0⟩)
    (hvl : vs.length = W * D) (hv0 : ∀ v : Nat, vs[v]!.normal = ⟨0, 0, 0⟩) :
    (accumulate_pass W D idx sn vs).length = W * D ∧
    ∀ v : Nat, (accumulate_pass W D idx sn vs)[v]!.normal = ⟨0, (List.count v idx : ℝ), 0⟩ := by
  have h := foldl_range_invariant (accumulate_step idx sn)
    (fun i st => st.length = W * D ∧
      ∀ v : Nat, st[v]!.normal = ⟨0, (List.count v (idx.take (i * 3)) : ℝ), 0⟩)
    (NUM_TRIANGLES W D) vs
    ⟨hvl, fun v => by simp [hv0 v]⟩
    (by
      intro i st hi hP
      obtain ⟨h1, h2⟩ := hP
      have hb1 := hb (i * 3) (by omega)
      have hb2 := hb (i * 3 + 1) (by omega)
      have hb3 := hb (i * 3 + 2) (by omega)
      refine ⟨?_, ?_⟩
      · simp only [accumulate_step, add_normal_length, h1]
      · intro v
        simp only [accumulate_step]
        rw [add_normal_normal _ _ _ _ (by rw [add_normal_length, add_normal_length, h1]; exact hb3),
          add_normal_normal _ _ _ _ (by rw [add_normal_length, h1]; exact hb2),
          add_normal_normal _ _ _ _ (by rw [h1]; exact hb1), h2 v, hsn i hi,
          take_triangle idx i (by omega), List.count_append, count_triangle]
        by_cases c1 : idx[i * 3]! = v <;> by_cases c2 : idx[i * 3 + 1]! = v <;>
          by_cases c3 : idx[i * 3 + 2]! = v <;>
          simp only [c1, c2, c3, if_true, if_false, v3_add] <;> ext <;> simp <;> ring)
  obtain ⟨h1, h2⟩ := h
  refine ⟨h1, ?_⟩
  intro v
  unfold accumulate_pass
  rw [h2 v, List.take_of_length_le (by omega)]

/-- The third normal pass: every vertex with a positive share count has its
accumulated normal divided by that count. -/
theorem average_pass_spec (W D : Nat) (sc : List Nat) (vs : List Vertex)
    (hvl : vs.length = W * D) :
    (average_pass W D sc vs).length = W * D ∧
    ∀ v : Nat, v < W * D → 0 < sc[v]! →
      (average_pass W D sc vs)[v]!.normal = v3_divs vs[v]!.normal (sc[v]! : ℝ) := by
  have h := foldl_range_invariant (average_step sc)
    (fun i st => st.length = W * D ∧
      ∀ v : Nat, st[v]!.normal
        = if v < i ∧ 0 < sc[v]! then v3_divs vs[v]!.normal (sc[v]! : ℝ) else vs[v]!.normal)
    (W * D) vs
    ⟨hvl, fun v => by simp⟩
    (by
      intro i st hi hP
      obtain ⟨h1, h2⟩ := hP
      by_cases hs : sc[i]! > 0
      · refine ⟨?_, ?_⟩
        · simp only [average_step, if_pos hs, List.length_set, h1]
        · intro v
          simp only [average_step, if_pos hs]
          rw [read_set _ _ _ _ (by omega)]
          by_cases hiv : i = v
          · subst hiv
            rw [if_pos rfl, if_pos ⟨Nat.lt_succ_self i, hs⟩]
            simp only
            rw [h2 i, if_neg (by omega)]
          · rw [if_neg hiv, h2 v]
            by_cases hv : v < i ∧ 0 < sc[v]!
            · rw [if_pos hv, if_pos ⟨by omega, hv.2⟩]
            · rw [if_neg hv, if_neg (by
                intro hc
                exact hv ⟨by omega, hc.2⟩)]
      · refine ⟨?_, ?_⟩
        · simp only [average_step, if_neg hs, h1]
        · intro v
          simp only [average_step, if_neg hs]
          rw [h2 v]
          by_cases hv : v < i ∧ 0 < sc[v]!
          · rw [if_pos hv, if_pos ⟨by omega, hv.2⟩]
          · rw [if_neg hv, if_neg (by
              intro hc
              have : v ≠ i := by
                intro e
                subst e
                exact hs hc.2
              exact hv ⟨by omega, hc.2⟩)])
  obtain ⟨h1, h2⟩ := h
  refine ⟨h1, ?_⟩
  intro v hv hs
  unfold average_pass
  rw [h2 v, if_pos ⟨hv, hs⟩]

theorem vertex_loop_normal_zero (W D : Nat) (height : ℝ → ℝ → ℝ) (v : Nat) :
    (vertex_loop W D height)[v]!.normal = ⟨0, 0, 0⟩ := by
  by_cases hv : v < W * D
  · have hW0 : 0 < W := by
      rcases Nat.eq_zero_or_pos W with h | h
      · subst h
        simp at hv
      · exact h
    have hz : v / W < D := by
      rw [Nat.div_lt_iff_lt_mul hW0, Nat.mul_comm]
      exact hv
    have e : v = v / W * W + v % W := by
      rw [Nat.mul_comm]
      exact (Nat.div_add_mod v W).symm
    rw [e, (vertex_loop_spec W D height).2 _ _ (Nat.mod_lt _ hW0) hz]
    rfl
  · rw [getElem!_neg _ v (by rw [(vertex_loop_spec W D height).1]; exact hv)]
    rfl

/-- C6: for the flat height function and `W >= 2`, `D >= 2`, after the three normal
passes of `setup()` every one of the `W * D` vertices has normal exactly `(0, 1, 0)`,
corner and edge vertices included. -/
theorem flat_mesh_normals (W D : Nat) (hW : 2 ≤ W) (hD : 2 ≤ D) :
    (setup W D (fun _ _ => 0)).vertices.length = W * D ∧
    ∀ i, i < W * D → (setup W D (fun _ _ => 0)).vertices[i]!.normal = vec3 0 1 0 := by
  have hidx := index_loop_spec W D
  have hb : ∀ j, j < NUM_TRIANGLES W D * 3 → (index_loop W D).indices[j]! < W * D :=
    fun j hj => index_loop_read_lt W D j hj
  have hface := face_pass_spec W D (vertex_loop W D (fun _ _ => 0)) _ hidx.2.1 hb
  have hsn : ∀ i, i < NUM_TRIANGLES W D →
      (face_pass W D (vertex_loop W D (fun _ _ => 0)) (index_loop W D).indices).1[i]!
        = ⟨0, 1, 0⟩ := by
    intro i hi
    rw [hface.2.2.1 i hi]
    have hc := face_cross_components W D hW hD (fun _ _ => 0) i hi
    have hxz := hc.2 (fun _ _ => rfl)
    have hpos : 0 < 2 / ((W : ℝ) - 1) * (2 / ((D : ℝ) - 1)) :=
      mul_pos (grid_spacing_pos W hW) (grid_spacing_pos D hD)
    have e : face_cross (vertex_loop W D (fun _ _ => 0)) (index_loop W D).indices i
        = ⟨0, 2 / ((W : ℝ) - 1) * (2 / ((D : ℝ) - 1)), 0⟩ := by
      ext
      · exact hxz.1
      · exact hc.1
      · exact hxz.2
    rw [e]
    exact v3_norm_up _ hpos
  have hacc := accumulate_pass_flat W D (index_loop W D).indices
    (face_pass W D (vertex_loop W D (fun _ _ => 0)) (index_loop W D).indices).1
    (vertex_loop W D (fun _ _ => 0)) hidx.2.1 hb hsn (vertex_loop_spec W D _).1
    (vertex_loop_normal_zero W D _)
  have havg := average_pass_spec W D
    (face_pass W D (vertex_loop W D (fun _ _ => 0)) (index_loop W D).indices).2
    (accumulate_pass W D (index_loop W D).indices
      (face_pass W D (vertex_loop W D (fun _ _ => 0)) (index_loop W D).indices).1
      (vertex_loop W D (fun _ _ => 0))) hacc.1
  refine ⟨havg.1, ?_⟩
  intro i hi
  have hcount : 0 < List.count i (index_loop W D).indices :=
    List.count_pos_iff.mpr (vertex_referenced W D hW hD i hi)
  have hsc := hface.2.2.2 i
  unfold setup
  simp only
  rw [havg.2 i hi (by rw [hsc]; exact hcount), hacc.2 i, hsc]
  have hne : ((List.count i (index_loop W D).indices : Nat) : ℝ) ≠ 0 := by
    exact_mod_cast hcount.ne'
  unfold v3_divs vec3
  ext
  · simp
  · exact div_self hne
  · simp

/-- C6 (witness): a `2 x 2` grid, whose four vertices are all corners. -/
theorem flat_mesh_normals_witness :
    2 ≤ 2 ∧ 2 ≤ 2 ∧
    ((setup 2 2 (fun _ _ => 0)).vertices.length = 2 * 2 ∧
    ∀ i, i < 2 * 2 → (setup 2 2 (fun _ _ => 0)).vertices[i]!.normal = vec3 0 1 0) :=
  ⟨by decide, by decide, flat_mesh_normals 2 2 (by decide) (by decide)⟩

/-! ## Sizes of the mesh -/

theorem accumulate_pass_length (W D : Nat) (idx : List Nat) (sn : List vec3_t)
    (vs : List Vertex) (hvl : vs.length = W * D) :
    (accumulate_pass W D idx sn vs).length = W * D := by
  unfold accumulate_pass
  exact foldl_range_invariant (accumulate_step idx sn) (fun _ st => st.length = W * D)
    (NUM_TRIANGLES W D) vs hvl
    (fun i st _ h => by simp only [accumulate_step, add_normal_length, h])

/-- C1: for `W >= 2`, `D >= 2` the vertex loop produces exactly `W * D` vertices, the
vertex of grid point `(x, z)` in slot `z * W + x`; the index loop ends with
`triangle = NUM_TRIANGLES = 2 * (W - 1) * (D - 1)`, fills a buffer of
`6 * (W - 1) * (D - 1)` indices, and assigns the slots `0, 1, ...,
6 * (W - 1) * (D - 1) - 1` each exactly once; the mesh handed on by `setup()` has these
sizes. -/
theorem mesh_size (W D : Nat) (hW : 2 ≤ W) (hD : 2 ≤ D) (height : ℝ → ℝ → ℝ) :
    (vertex_loop W D height).length = W * D ∧
    (∀ x z, x < W → z < D →
      (vertex_loop W D height)[z * W + x]! = grid_vertex W D height x z) ∧
    (index_loop W D).triangle = NUM_TRIANGLES W D ∧
    NUM_TRIANGLES W D = 2 * (W - 1) * (D - 1) ∧
    (index_loop W D).indices.length = 6 * (W - 1) * (D - 1) ∧
    (index_loop W D).written = List.range (6 * (W - 1) * (D - 1)) ∧
    (setup W D height).vertices.length = W * D ∧
    (setup W D height).indices.length = 6 * (W - 1) * (D - 1) := by
  have hv := vertex_loop_spec W D height
  have hi := index_loop_spec W D
  have e1 : 2 * ((D - 1) * (W - 1)) = NUM_TRIANGLES W D := by
    unfold NUM_TRIANGLES
    ring
  have e2 : NUM_TRIANGLES W D * 3 = 6 * (W - 1) * (D - 1) := by
    unfold NUM_TRIANGLES
    ring
  have e3 : 6 * ((D - 1) * (W - 1)) = 6 * (W - 1) * (D - 1) := by ring
  refine ⟨hv.1, hv.2, ?_, rfl, ?_, ?_, ?_, ?_⟩
  · rw [hi.1, e1]
  · rw [hi.2.1, e2]
  · rw [hi.2.2.1, e3]
  · exact (average_pass_spec W D _ _ (accumulate_pass_length W D _ _ _ hv.1)).1
  · show (index_loop W D).indices.length = _
    rw [hi.2.1, e2]

/-- C1 (witness): a `3 x 2` grid. -/
theorem mesh_size_witness :
    2 ≤ 3 ∧ 2 ≤ 2 ∧
    ((vertex_loop 3 2 (fun _ _ => 0)).length = 3 * 2 ∧
    (∀ x z, x < 3 → z < 2 →
      (vertex_loop 3 2 (fun _ _ => 0))[z * 3 + x]! = grid_vertex 3 2 (fun _ _ => 0) x z) ∧
    (index_loop 3 2).triangle = NUM_TRIANGLES 3 2 ∧
    NUM_TRIANGLES 3 2 = 2 * (3 - 1) * (2 - 1) ∧
    (index_loop 3 2).indices.length = 6 * (3 - 1) * (2 - 1) ∧
    (index_loop 3 2).written = List.range (6 * (3 - 1) * (2 - 1)) ∧
    (setup 3 2 (fun _ _ => 0)).vertices.length = 3 * 2 ∧
    (setup 3 2 (fun _ _ => 0)).indices.length = 6 * (3 - 1) * (2 - 1)) :=
  ⟨by decide, by decide, mesh_size 3 2 (by decide) (by decide) (fun _ _ => 0)⟩

/-- C2: for `W >= 2`, `D >= 2` every index in the buffer filled by the index loop is a
valid vertex index, at least `0` and below `W * D`; so for every triangle the lookups
`vertices[i1]`, `vertices[i2]`, `vertices[i3]` and the three `vertex_share_count`
accesses of the normal passes are inside their buffers. -/
theorem index_bounds (W D : Nat) (hW : 2 ≤ W) (hD : 2 ≤ D) (height : ℝ → ℝ → ℝ) :
    (∀ i ∈ (index_loop W D).indices, 0 ≤ i ∧ i < W * D) ∧
    (∀ t k, t < NUM_TRIANGLES W D → k < 3 →
      (index_loop W D).indices[t * 3 + k]! < (vertex_loop W D height).length ∧
      (index_loop W D).indices[t * 3 + k]!
        < (face_pass W D (vertex_loop W D height) (index_loop W D).indices).2.length) := by
  constructor
  · intro i hi
    obtain ⟨j, hj, rfl⟩ := List.mem_iff_getElem.mp hi
    refine ⟨Nat.zero_le _, ?_⟩
    have h := index_loop_read_lt W D j (by rw [← (index_loop_spec W D).2.1]; exact hj)
    rwa [getElem!_pos (index_loop W D).indices j hj] at h
  · intro t k ht hk
    rw [(vertex_loop_spec W D _).1,
      (face_pass_spec W D _ _ (index_loop_spec W D).2.1
        (fun j hj => index_loop_read_lt W D j hj)).2.1]
    exact ⟨index_loop_read_lt W D _ (by omega), index_loop_read_lt W D _ (by omega)⟩

/-- C2 (witness): a `2 x 2` grid. -/
theorem index_bounds_witness :
    2 ≤ 2 ∧ 2 ≤ 2 ∧
    ((∀ i ∈ (index_loop 2 2).indices, 0 ≤ i ∧ i < 2 * 2) ∧
    (∀ t k, t < NUM_TRIANGLES 2 2 → k < 3 →
      (index_loop 2 2).indices[t * 3 + k]! < (vertex_loop 2 2 (fun _ _ => 0)).length ∧
      (index_loop 2 2).indices[t * 3 + k]!
        < (face_pass 2 2 (vertex_loop 2 2 (fun _ _ => 0)) (index_loop 2 2).indices).2.length)) :=
  ⟨by decide, by decide, index_bounds 2 2 (by decide) (by decide) (fun _ _ => 0)⟩

end Terrain
